import Mathlib

/-!
Verification development for the GeoPhoto ingestion-and-classification engine.

The JavaScript source is shallowly embedded: each definition below mirrors one
function of the source (`src/main.js`, `src/modules/Database.js`,
`src/modules/PhotoFilesManager.js`, `src/modules/Tag.js`).  JavaScript numbers
appearing in data are modelled as `ℚ` (coordinates) and `ℤ` (millisecond
timestamps); nullable fields are `Option`; JavaScript truthiness of nullable
numeric fields (`null` and `0` are falsy) is modelled explicitly.  The
floating-point haversine computation is modelled in two ways: the formula
itself over `ℝ` (for facts about the formula), and as an abstract numeric
distance parameter `Dist` threaded through the tag-matching logic (whose
behaviour does not depend on how the number is computed).
-/

namespace GeoPhoto

/-- JavaScript truthiness of a nullable numeric field: `null` and `0` are
falsy, every other number is truthy. -/
def truthyNum : Option ℚ → Bool
  | none => false
  | some x => decide (x ≠ 0)

/-- Models the JavaScript expression `x || null` on a nullable numeric field:
a falsy value (null or 0) becomes null. -/
def jsOrNull (o : Option ℚ) : Option ℚ :=
  if truthyNum o then o else none

/-! ## Tag data model (`tags`, `tag_locations`, `tag_events` tables) -/

/-- One row of the `tags` table. -/
structure TagRow where
  id : Nat
  name : String
  category : String
  parentId : Option Nat
  deriving DecidableEq, Repr

/-- One row of the `tag_locations` table. -/
structure LocRow where
  tagId : Nat
  lat : Option ℚ
  lng : Option ℚ
  radius : Option ℚ
  deriving DecidableEq, Repr

/-- One row of `getAllEventTagsWithLocation` (an `event` tag joined with its
`tag_events` row). -/
structure EventRow where
  id : Nat
  name : String
  startTime : Option ℤ
  endTime : Option ℤ
  locationTagId : Option Nat
  deriving DecidableEq, Repr

/-- `SELECT * FROM tags WHERE id = ?` (first matching row). -/
def findTag (tags : List TagRow) (id : Nat) : Option TagRow :=
  tags.find? (fun t => t.id == id)

/-- `SELECT * FROM tag_locations WHERE tag_id = ?` (first matching row). -/
def findLoc (locs : List LocRow) (id : Nat) : Option LocRow :=
  locs.find? (fun l => l.tagId == id)

/-- `SELECT id FROM tags WHERE parent_id = ? AND category = 'location'`. -/
def locChildren (tags : List TagRow) (id : Nat) : List TagRow :=
  tags.filter (fun t => t.parentId == some id && t.category == "location")

/-- The numeric great-circle distance computation, abstracted as a parameter:
`dist lat1 lng1 lat2 lng2` stands for the number the source computes with
`LandmarkTag.haversineDistance` in floating point.  The matching logic below
is proved for every such numeric function. -/
abbrev Dist : Type := ℚ → ℚ → ℚ → ℚ → ℚ

/-- `LandmarkTag.containsPoint(lat, lng)`:
`if (!this.hasCoordinates || this.radius <= 0) return false;`
`return haversineDistance(this.lat, this.lng, lat, lng) <= this.radius;`
The landmark radius argument already accounts for `data.radius ?? 0`. -/
def containsPoint (dist : Dist) (lat lng : Option ℚ) (radius : ℚ)
    (plat plng : ℚ) : Bool :=
  match lat, lng with
  | some la, some ln =>
    if radius ≤ 0 then false else decide (dist la ln plat plng ≤ radius)
  | _, _ => false

/-- `EventTag.containsTime(time)`: false without a complete window, else the
inclusive comparison `start <= t && t <= end`. -/
def containsTime (startTime endTime : Option ℤ) (t : ℤ) : Bool :=
  match startTime, endTime with
  | some s, some e => decide (s ≤ t) && decide (t ≤ e)
  | _, _ => false

/-- One element of the list built by `getLocationTagDescendants`: the tag row
spread together with its `tag_locations` fields (`{ ...base, ...loc }`,
fields absent when there is no location row) and the recursion depth. -/
structure DescEntry where
  row : TagRow
  lat : Option ℚ
  lng : Option ℚ
  radius : Option ℚ
  depth : Nat
  deriving DecidableEq, Repr

/-- The recursive `collect` helper of `Database.getLocationTagDescendants`:
look the tag row up, push it together with its location fields at the current
depth, then recurse into its `location`-category children.  The source
recursion is unbounded; the embedding carries explicit fuel, and is run with
fuel `tags.length + 1`, which is enough for every acyclic store. -/
def collectDesc (tags : List TagRow) (locs : List LocRow) :
    Nat → Nat → Nat → List DescEntry
  | 0, _, _ => []
  | fuel + 1, id, depth =>
    match findTag tags id with
    | none => []
    | some base =>
      let loc := findLoc locs id
      ⟨base, loc.bind LocRow.lat, loc.bind LocRow.lng, loc.bind LocRow.radius,
        depth⟩ ::
        (locChildren tags id).flatMap
          (fun c => collectDesc tags locs fuel c.id (depth + 1))

/-- `Database.getLocationTagDescendants(tagId)`, flat pre-order list with
depths, starting at depth 0. -/
def getLocationTagDescendants (tags : List TagRow) (locs : List LocRow)
    (id : Nat) : List DescEntry :=
  collectDesc tags locs (tags.length + 1) id 0

/-- Containment test for one descendant entry: `new LandmarkTag(desc)` uses
`data.radius ?? 0`, then `containsPoint`. -/
def descContains (dist : Dist) (plat plng : ℚ) (e : DescEntry) : Bool :=
  containsPoint dist e.lat e.lng (e.radius.getD 0) plat plng

/-- `descendants.sort((a, b) => b._depth - a._depth)`: a stable sort putting
greater depths first (V8 `Array.prototype.sort` is stable). -/
def sortByDepthDesc (l : List DescEntry) : List DescEntry :=
  l.mergeSort (fun a b => decide (b.depth ≤ a.depth))

/-- Result of processing one candidate event inside the
`match-tags-for-photo` handler: whether the event tag is assigned, and which
landmark descendant entry (if any) is assigned. -/
structure EventMatchResult where
  eventAssigned : Bool
  landmarkAssigned : Option DescEntry
  deriving DecidableEq, Repr

/-- The per-event body of the `match-tags-for-photo` handler
(`src/main.js`), for a photo that has a capture time and coordinates and no
pre-existing tags: check the time window, load the linked landmark row
(`tags JOIN tag_locations`), check its geofence, then pick the deepest
containing strict descendant from the depth-sorted descendant list, falling
back to the depth-0 entry. -/
def matchEvent (dist : Dist) (tags : List TagRow) (locs : List LocRow)
    (photoTime : ℤ) (plat plng : ℚ) (evt : EventRow) : EventMatchResult :=
  if ¬ containsTime evt.startTime evt.endTime photoTime then ⟨false, none⟩
  else
    match evt.locationTagId with
    | none => ⟨false, none⟩
    | some locId =>
      match findTag tags locId, findLoc locs locId with
      | some _, some loc =>
        if ¬ containsPoint dist loc.lat loc.lng (loc.radius.getD 0) plat plng
        then ⟨false, none⟩
        else
          let descendants :=
            sortByDepthDesc (getLocationTagDescendants tags locs locId)
          let strict := descendants.find?
            (fun d => decide (d.depth ≠ 0) && descContains dist plat plng d)
          let matchedLoc :=
            match strict with
            | some d => some d
            | none => descendants.find? (fun d => d.depth == 0)
          ⟨true, matchedLoc⟩
      | _, _ => ⟨false, none⟩

/-! ## The haversine formula over the reals (`LandmarkTag.haversineDistance`) -/

/-- Degrees to radians, `deg => deg * Math.PI / 180`. -/
noncomputable def toRad (deg : ℝ) : ℝ := deg * Real.pi / 180

/-- `Math.atan2(y, x)` on the domain reachable from the haversine formula
(`x ≥ 0`): the principal arctangent for positive `x`, the axis values at
`x = 0`, and the shifted arctangent for negative `x`. -/
noncomputable def jsAtan2 (y x : ℝ) : ℝ :=
  if 0 < x then Real.arctan (y / x)
  else if x = 0 then
    (if y = 0 then 0 else if 0 < y then Real.pi / 2 else -(Real.pi / 2))
  else if 0 ≤ y then Real.arctan (y / x) + Real.pi
  else Real.arctan (y / x) - Real.pi

/-- `LandmarkTag.haversineDistance(lat1, lng1, lat2, lng2)` with Earth radius
6371000 m, modelled over the reals. -/
noncomputable def haversineDistance (lat1 lng1 lat2 lng2 : ℝ) : ℝ :=
  let R : ℝ := 6371000
  let dLat := toRad (lat2 - lat1)
  let dLng := toRad (lng2 - lng1)
  let a := Real.sin (dLat / 2) ^ 2 +
    Real.cos (toRad lat1) * Real.cos (toRad lat2) * Real.sin (dLng / 2) ^ 2
  R * 2 * jsAtan2 (Real.sqrt a) (Real.sqrt (1 - a))

/-- The data carried by a `LandmarkTag` instance: nullable coordinates
(`data.lat ?? null`) and the radius after `data.radius ?? 0`. -/
structure LandmarkData where
  lat : Option ℝ
  lng : Option ℝ
  radius : ℝ

/-- `LandmarkTag.containsPoint` with the real-valued haversine formula:
`if (!this.hasCoordinates || this.radius <= 0) return false;`
`return haversineDistance(...) <= this.radius;` -/
noncomputable def containsPointReal (lm : LandmarkData) (plat plng : ℝ) : Prop :=
  match lm.lat, lm.lng with
  | some la, some ln =>
    if lm.radius ≤ 0 then False
    else haversineDistance la ln plat plng ≤ lm.radius
  | _, _ => False

/-! ## Tag deletion and reparenting (`Database.deleteTag`, `Database.moveTag`) -/

/-- `SELECT id FROM tags WHERE parent_id = ?` (every category). -/
def childrenAll (tags : List TagRow) (id : Nat) : List TagRow :=
  tags.filter (fun t => t.parentId == some id)

/-- The recursive `collectIds` helper of `Database.deleteTag`: collect each
child subtree first, then push the node itself (post-order).  The source
recursion is unbounded; the embedding carries explicit fuel and is run with
fuel `tags.length + 1`, enough for every acyclic store. -/
def collectIds (tags : List TagRow) : Nat → Nat → List Nat
  | 0, _ => []
  | fuel + 1, id =>
    ((childrenAll tags id).flatMap (fun c => collectIds tags fuel c.id)) ++ [id]

/-- One row of the `photo_tags` join table. -/
structure PhotoTagRow where
  photoId : Nat
  tagId : Nat
  deriving DecidableEq, Repr

/-- The tag side of the store: the `tags` table and the `photo_tags` join
table. -/
structure TagStore where
  tags : List TagRow
  photoTags : List PhotoTagRow
  deriving DecidableEq, Repr

/-- `DELETE FROM tags WHERE id = ?` for one id, together with the declared
`ON DELETE CASCADE` of `photo_tags.tag_id` (better-sqlite3 enforces declared
foreign keys, so deleting a tag row removes its assignment rows). -/
def deleteOne (st : TagStore) (tid : Nat) : TagStore :=
  { tags := st.tags.filter (fun t => decide (t.id ≠ tid)),
    photoTags := st.photoTags.filter (fun pt => decide (pt.tagId ≠ tid)) }

/-- `Database.deleteTag(id)`: collect the subtree ids post-order, then delete
them one by one inside a single transaction. -/
def deleteTag (st : TagStore) (id : Nat) : TagStore :=
  (collectIds st.tags (st.tags.length + 1) id).foldl deleteOne st

/-- `Database.moveTag(id, parentId)`:
`UPDATE tags SET parent_id = ? WHERE id = ?` — nothing else. -/
def moveTag (tags : List TagRow) (id : Nat) (parentId : Option Nat) :
    List TagRow :=
  tags.map (fun t => if t.id == id then { t with parentId := parentId } else t)

/-- A rank function witnessing that a tag table's parent relation is acyclic:
every parent has strictly smaller rank than its child. -/
def Ranked (tags : List TagRow) (rank : Nat → Nat) : Prop :=
  ∀ t ∈ tags, ∀ p, t.parentId = some p → rank p < rank t.id

/-- Acyclicity of the parent relation, as the existence of a rank function. -/
def Acyclic (tags : List TagRow) : Prop :=
  ∃ rank, Ranked tags rank

/-- `n` lies in the subtree rooted at `root`: either `n = root`, or `n` is
the id of a row whose parent chain reaches `root`. -/
inductive Desc (tags : List TagRow) (root : Nat) : Nat → Prop
  | refl : Desc tags root root
  | step {p : Nat} {c : TagRow} :
      Desc tags root p → c ∈ tags → c.parentId = some p → Desc tags root c.id

/-! ## Media classification (`Photo.isPhotoExtension` etc.) -/

/-- Photo extension allow-list of `Photo.isPhotoExtension`. -/
def photoExtList : List String :=
  ["jpg", "jpeg", "heic", "png", "gif", "bmp", "webp"]

/-- Video extension allow-list of `Photo.isVideoExtension`. -/
def videoExtList : List String :=
  ["mp4", "mov", "avi", "mkv", "wmv", "flv", "webm", "m4v", "3gp"]

/-- The case-insensitive regex test `\.(e1|e2|...)$` against an allow-list:
the lower-cased filename ends with a dot followed by one of the (lower-case)
extensions.  Stated over the character list of the string. -/
def hasExtIn (filename : String) (exts : List String) : Bool :=
  exts.any
    (fun e => List.isSuffixOf ('.' :: e.data) (filename.data.map Char.toLower))

/-- `Photo.isPhotoExtension(filename)`. -/
def isPhotoExtension (filename : String) : Bool :=
  hasExtIn filename photoExtList

/-- `Photo.isVideoExtension(filename)`. -/
def isVideoExtension (filename : String) : Bool :=
  hasExtIn filename videoExtList

/-- `Photo.isMediaFile(filename)`. -/
def isMediaFile (filename : String) : Bool :=
  isPhotoExtension filename || isVideoExtension filename

/-! ## Catalog store (`photos` and `directories` tables) -/

/-- One row of the `directories` table (the `added_time` column plays no role
in the claims and is omitted). -/
structure DirRow where
  path : String
  lastScanTime : Option ℤ
  deriving DecidableEq, Repr

/-- One row of the `photos` table (columns `remark`, `like` and the surrogate
id play no role in the claims and are omitted). -/
structure PhotoRow where
  directory : String
  filename : String
  time : Option ℤ
  lat : Option ℚ
  lng : Option ℚ
  type : String
  deriving DecidableEq, Repr

/-- The catalog database state used by the scan pipeline. -/
structure Db where
  dirs : List DirRow
  photos : List PhotoRow
  deriving DecidableEq, Repr

/-- `Database.hasDirectory(dirPath)`: `SELECT 1 FROM directories WHERE path = ?`. -/
def hasDirectory (db : Db) (p : String) : Bool :=
  db.dirs.any (fun r => r.path == p)

/-- `Database.addDirectory(dirPath)`: `INSERT OR IGNORE` with a null
`last_scan_time`. -/
def addDirectory (db : Db) (p : String) : Db :=
  if hasDirectory db p then db else { db with dirs := db.dirs ++ [⟨p, none⟩] }

/-- `Database.updateScanTime(dirPath)`: set `last_scan_time` on the matching
rows. -/
def updateScanTime (db : Db) (p : String) (now : ℤ) : Db :=
  let upd := fun (r : DirRow) =>
    if r.path == p then { r with lastScanTime := some now } else r
  { db with dirs := db.dirs.map upd }

/-- `Database.isDirectoryScanned(dirPath)`: a row exists and its
`last_scan_time` is not null. -/
def isDirectoryScanned (db : Db) (p : String) : Bool :=
  db.dirs.any (fun r => r.path == p && r.lastScanTime.isSome)

/-- `Database.isFileExists(directory, filename)`. -/
def isFileExists (db : Db) (d f : String) : Bool :=
  db.photos.any (fun ph => ph.directory == d && ph.filename == f)

/-! ## Directory walker (`PhotoFilesManager.getAllFilesRecursively`) -/

/-- A node of the file tree.  A symbolic link is kept abstract: the source
detects links with `lstatSync` and skips them before ever resolving the
target, so the target is irrelevant to the walk. -/
inductive FsEntry where
  | file (name : String)
  | dir (name : String) (entries : List FsEntry)
  | symlink (name : String)
  deriving Repr

/-- The special directories the walker skips:
`item.startsWith('.') || item === 'node_modules' || item === '$RECYCLE.BIN'`
(starting with the one-character prefix "." means the first character is a
dot). -/
def isSpecialDir (name : String) : Bool :=
  name.data.head? == some '.' || name == "node_modules" || name == "$RECYCLE.BIN"

/-- Relative-path concatenation; the scan root itself is the empty string,
matching the source convention. -/
def joinPath (base name : String) : String :=
  if base == "" then name else base ++ "/" ++ name

/-- One collected media file: relative directory and filename. -/
structure FileItem where
  directory : String
  filename : String
  deriving DecidableEq, Repr

/-- Walker state: the canonical-path visited set, the instrumentation list of
directories whose body actually ran (in order), the catalog, and the
collected file list.  Since symbolic links are never followed, the canonical
path of a visited directory coincides with its relative path from the root. -/
structure WalkState where
  visited : List String
  entered : List String
  db : Db
  files : List FileItem
  deriving DecidableEq, Repr

/-- Mark a directory visited and record that its body ran. -/
def visitDir (s : WalkState) (rel : String) : WalkState :=
  { s with visited := s.visited ++ [rel], entered := s.entered ++ [rel] }

/-- The `for (const item of items)` loop of `getAllFilesRecursively`,
together with the inlined body of the recursive call (cycle-guard check at
the head of the function, then the loop over the subdirectory's entries):
 * a media file is appended to the list, any other file is skipped;
 * a symbolic link is skipped (`stat.isSymbolicLink()`);
 * a special directory is skipped; with `skipScanned` a subdirectory already
   present in the `directories` table is pruned before recursion; otherwise
   the subdirectory is registered (`addDirectory`), and entered unless its
   canonical path is already in the visited set. -/
def walkEntries (skipScanned : Bool) (relPath : String) :
    WalkState → List FsEntry → WalkState
  | s, [] => s
  | s, FsEntry.file name :: rest =>
    let s1 := if isMediaFile name
      then { s with files := s.files ++ [⟨relPath, name⟩] } else s
    walkEntries skipScanned relPath s1 rest
  | s, FsEntry.symlink _ :: rest => walkEntries skipScanned relPath s rest
  | s, FsEntry.dir name sub :: rest =>
    let s1 :=
      if isSpecialDir name then s
      else
        let rel := joinPath relPath name
        if skipScanned && hasDirectory s.db rel then s
        else
          let s2 := { s with db := addDirectory s.db rel }
          if s2.visited.contains rel then s2
          else walkEntries skipScanned rel (visitDir s2 rel) sub
    walkEntries skipScanned relPath s1 rest
termination_by _ l => sizeOf l
decreasing_by all_goals (simp_wf <;> omega)

/-- `getAllFilesRecursively` as invoked on the scan root (relative path ""):
cycle-guard check, then the loop over the root's entries. -/
def getAllFilesRecursively (skipScanned : Bool) (entries : List FsEntry)
    (s : WalkState) : WalkState :=
  if s.visited.contains "" then s
  else walkEntries skipScanned "" (visitDir s "") entries

/-! ## Metadata extraction tail (`PhotoFilesManager.extractMetadata`) -/

/-- The fields `exifr.parse` is asked to pick. -/
structure ParsedExif where
  dateTimeOriginal : Option ℤ
  createDate : Option ℤ
  latitude : Option ℚ
  longitude : Option ℚ
  deriving DecidableEq, Repr

/-- The `{time, lat, lng}` record produced by `extractMetadata`. -/
structure Meta where
  time : Option ℤ
  lat : Option ℚ
  lng : Option ℚ
  deriving DecidableEq, Repr

/-- The result mapping at the end of `extractMetadata`: on a missing parse
result all fields are null, otherwise
`time: meta.DateTimeOriginal || meta.CreateDate || null` (`Date` objects are
truthy, so this is the first non-null of the two) and
`lat: meta.latitude || null`, `lng: meta.longitude || null` (a numeric 0 is
falsy and becomes null). -/
def extractMetadataResult (meta : Option ParsedExif) : Meta :=
  match meta with
  | none => ⟨none, none, none⟩
  | some m =>
    ⟨(m.dateTimeOriginal <|> m.createDate), jsOrNull m.latitude,
      jsOrNull m.longitude⟩

/-! ## Temporal-proximity locator (`PhotoFilesManager.findNearestPhotoByTime`) -/

/-- One entry of `photoMetaList` / `videoMetaList` built during a scan. -/
structure PhotoMeta where
  directory : String
  filename : String
  time : Option ℤ
  lat : Option ℚ
  lng : Option ℚ
  type : String
  geoSource : Option String
  deriving DecidableEq, Repr

/-- The eligibility / geotag test `photo.lat && photo.lng` (null and 0 are
falsy). -/
def isGeoTagged (p : PhotoMeta) : Bool :=
  truthyNum p.lat && truthyNum p.lng

/-- The loop body of `findNearestPhotoByTime`: skip candidates without a time
or without truthy coordinates, otherwise keep the candidate with the strictly
smallest absolute time delta seen so far (`timeDiff < minTimeDiff`). -/
def nearestStep (t : ℤ) (acc : Option (PhotoMeta × ℤ)) (photo : PhotoMeta) :
    Option (PhotoMeta × ℤ) :=
  match photo.time with
  | none => acc
  | some pt =>
    if isGeoTagged photo then
      let diff := |t - pt|
      match acc with
      | none => some (photo, diff)
      | some (_, m) => if diff < m then some (photo, diff) else acc
    else acc

/-- `PhotoFilesManager.findNearestPhotoByTime(targetTime, photoList)`:
`null` without a target time, else the fold of `nearestStep` starting from
`nearestPhoto = null, minTimeDiff = Infinity`. -/
def findNearestPhotoByTime (targetTime : Option ℤ)
    (photoList : List PhotoMeta) : Option (PhotoMeta × ℤ) :=
  match targetTime with
  | none => none
  | some t => photoList.foldl (nearestStep t) none

/-- `const ONE_HOUR_MS = 3600000`. -/
def ONE_HOUR_MS : ℤ := 3600000

/-- The per-asset inference step of `scanAndProcessDirectory`: if the asset
lacks truthy coordinates, look the nearest geotagged photo up and copy its
coordinates with provenance `inferred` when the delta is at most one hour. -/
def inferForPhoto (photosWithGPS : List PhotoMeta) (photo : PhotoMeta) :
    PhotoMeta :=
  if isGeoTagged photo then photo
  else
    match findNearestPhotoByTime photo.time photosWithGPS with
    | some (np, d) =>
      if d ≤ ONE_HOUR_MS then
        { photo with lat := np.lat, lng := np.lng, geoSource := some "inferred" }
      else photo
    | none => photo

/-! ## Batch upsert (`Database.batchInsertPhotos`) -/

/-- The row bound by `batchInsertPhotos` for one item:
`photo.lat || null` and `photo.lng || null` turn 0 into NULL. -/
def mkPhotoRow (p : PhotoMeta) : PhotoRow :=
  ⟨p.directory, p.filename, p.time, jsOrNull p.lat, jsOrNull p.lng, p.type⟩

/-- `INSERT OR REPLACE` keyed by the unique `(directory, filename)` pair:
the conflicting row is replaced. -/
def upsertRow (photos : List PhotoRow) (p : PhotoMeta) : List PhotoRow :=
  photos.filter
      (fun r => !(r.directory == p.directory && r.filename == p.filename)) ++
    [mkPhotoRow p]

/-- `Database.batchInsertPhotos(photos)`: all rows upserted in one
transaction. -/
def batchInsertPhotos (db : Db) (items : List PhotoMeta) : Db :=
  { db with photos := items.foldl upsertRow db.photos }

/-! ## Ingestion orchestrator (`PhotoFilesManager.scanAndProcessDirectory`) -/

/-- The summary counters returned by a scan. -/
structure ScanResult where
  totalPhotos : Nat
  totalVideos : Nat
  newPhotos : Nat
  newVideos : Nat
  skippedFiles : Nat
  skippedDirectory : Bool
  deriving DecidableEq, Repr

/-- The mutable counters and metadata lists of the per-file loop. -/
structure ScanAccum where
  totalPhotos : Nat
  totalVideos : Nat
  skippedFiles : Nat
  photoMetaList : List PhotoMeta
  videoMetaList : List PhotoMeta
  deriving DecidableEq, Repr

/-- The filesystem metadata oracle: the post-processed `extractMetadata`
result and the file-modification-time fallback, per (directory, filename).
Both are pure functions, modelling an unchanged filesystem. -/
structure MetaSource where
  exif : String → String → Meta
  mtime : String → String → Option ℤ

/-- The per-file loop body of `scanAndProcessDirectory`: count the file,
skip it when the catalog already has its `(directory, filename)` pair,
otherwise collect its metadata (photos: extracted time with mtime fallback;
videos: mtime only, no coordinates). -/
def processMediaItem (db : Db) (ms : MetaSource) (acc : ScanAccum)
    (item : FileItem) : ScanAccum :=
  if isPhotoExtension item.filename then
    if isFileExists db item.directory item.filename then
      { acc with totalPhotos := acc.totalPhotos + 1,
                 skippedFiles := acc.skippedFiles + 1 }
    else
      let meta := ms.exif item.directory item.filename
      let entry : PhotoMeta :=
        ⟨item.directory, item.filename,
          (meta.time <|> ms.mtime item.directory item.filename),
          meta.lat, meta.lng, "photo", none⟩
      { acc with totalPhotos := acc.totalPhotos + 1,
                 photoMetaList := acc.photoMetaList ++ [entry] }
  else if isVideoExtension item.filename then
    if isFileExists db item.directory item.filename then
      { acc with totalVideos := acc.totalVideos + 1,
                 skippedFiles := acc.skippedFiles + 1 }
    else
      let entry : PhotoMeta :=
        ⟨item.directory, item.filename,
          ms.mtime item.directory item.filename, none, none, "video", none⟩
      { acc with totalVideos := acc.totalVideos + 1,
                 videoMetaList := acc.videoMetaList ++ [entry] }
  else acc

/-- `PhotoFilesManager.scanAndProcessDirectory(dirPath, _, skipScanned)`:
register the root, walk the tree, early-return when no media file was found,
otherwise run the per-file loop, infer locations from the geotagged photo
pool, batch-upsert everything and stamp the root's scan time.  Both return
paths report `skippedDirectory: false`. -/
def scanAndProcessDirectory (entries : List FsEntry) (db0 : Db)
    (ms : MetaSource) (skipScanned : Bool) (now : ℤ) : ScanResult × Db :=
  let db1 := addDirectory db0 ""
  let w := getAllFilesRecursively skipScanned entries ⟨[], [], db1, []⟩
  let mediaItems := w.files
  let db2 := w.db
  if mediaItems.isEmpty then
    (⟨0, 0, 0, 0, 0, false⟩, updateScanTime db2 "" now)
  else
    let acc := mediaItems.foldl (processMediaItem db2 ms) ⟨0, 0, 0, [], []⟩
    let photosWithGPS := acc.photoMetaList.filter isGeoTagged
    let photoList :=
      if photosWithGPS.isEmpty then acc.photoMetaList
      else acc.photoMetaList.map (inferForPhoto photosWithGPS)
    let videoList :=
      if photosWithGPS.isEmpty then acc.videoMetaList
      else acc.videoMetaList.map (inferForPhoto photosWithGPS)
    let allFiles := photoList ++ videoList
    let db3 := if allFiles.isEmpty then db2 else batchInsertPhotos db2 allFiles
    (⟨acc.totalPhotos, acc.totalVideos, photoList.length, videoList.length,
      acc.skippedFiles, false⟩, updateScanTime db3 "" now)

/-! ## Rate-limited reverse geocoding (`get-city-name` handler, `src/main.js`) -/

/-- The possible outcomes of the external `fetch` to the geocoding service. -/
inductive GeoResponse where
  | ok (cityName : String)
  | httpError (status : Nat)
  | badContent
  | jsonError
  | fetchFailure
  deriving DecidableEq, Repr

/-- The module-level mutable state of the handler: the coordinate-keyed
cache and `lastGeocodingTime`. -/
structure GeoState where
  cache : List (String × String)
  lastGeocodingTime : ℤ
  deriving DecidableEq, Repr

/-- `const geocodingInterval = 1500`. -/
def geocodingInterval : ℤ := 1500

/-- Observable outcome of one handler invocation: the reply, the state left
behind, how many external requests were issued during the call, and when the
request (if any) fired. -/
structure GeoOutcome where
  reply : String
  state : GeoState
  fetchCount : Nat
  fetchTime : Option ℤ
  deriving DecidableEq, Repr

/-- Cache lookup by rounded coordinate key. -/
def cacheLookup (cache : List (String × String)) (k : String) : Option String :=
  (cache.find? (fun e => e.fst == k)).map Prod.snd

/-- The `get-city-name` handler body, sequential semantics: return the cached
name if present; otherwise sleep until at least `geocodingInterval` has
passed since `lastGeocodingTime`, stamp `lastGeocodingTime`, and issue the
single `fetch`.  A successful response is cached and returned; every error
response — including HTTP 429 (`too many requests`) — returns the sentinel
`Unknown Location` immediately, without caching, requeueing or retrying. -/
def getCityName (st : GeoState) (key : String) (now : ℤ)
    (resp : GeoResponse) : GeoOutcome :=
  match cacheLookup st.cache key with
  | some name => ⟨name, st, 0, none⟩
  | none =>
    let fire := if now - st.lastGeocodingTime < geocodingInterval
      then st.lastGeocodingTime + geocodingInterval else now
    let st1 : GeoState := { st with lastGeocodingTime := fire }
    match resp with
    | GeoResponse.ok name =>
      ⟨name, { st1 with cache := st1.cache ++ [(key, name)] }, 1, some fire⟩
    | _ => ⟨"Unknown Location", st1, 1, some fire⟩

/-! ## Unfolding equations for the walker -/

/-- Unfolding: empty directory. -/
theorem walkEntries_nil (skip : Bool) (rel : String) (s : WalkState) :
    walkEntries skip rel s [] = s := by
  rw [walkEntries]

/-- Unfolding: file entry. -/
theorem walkEntries_file (skip : Bool) (rel : String) (s : WalkState)
    (name : String) (rest : List FsEntry) :
    walkEntries skip rel s (FsEntry.file name :: rest) =
      walkEntries skip rel
        (if isMediaFile name
         then { s with files := s.files ++ [⟨rel, name⟩] } else s) rest := by
  rw [walkEntries]

/-- Unfolding: symbolic-link entry — never followed, no effect at all. -/
theorem walkEntries_symlink (skip : Bool) (rel : String) (s : WalkState)
    (name : String) (rest : List FsEntry) :
    walkEntries skip rel s (FsEntry.symlink name :: rest) =
      walkEntries skip rel s rest := by
  rw [walkEntries]

/-- Unfolding: directory entry. -/
theorem walkEntries_dir (skip : Bool) (rel : String) (s : WalkState)
    (name : String) (sub rest : List FsEntry) :
    walkEntries skip rel s (FsEntry.dir name sub :: rest) =
      walkEntries skip rel
        (if isSpecialDir name then s
         else
           let rel2 := joinPath rel name
           if skip && hasDirectory s.db rel2 then s
           else
             let s2 := { s with db := addDirectory s.db rel2 }
             if s2.visited.contains rel2 then s2
             else walkEntries skip rel2 (visitDir s2 rel2) sub) rest := by
  rw [walkEntries]

/-! ## C5 — geofence containment -/

/-- The haversine formula evaluates to exactly zero at the center itself. -/
theorem haversineDistance_self (la ln : ℝ) : haversineDistance la ln la ln = 0 := by
  unfold haversineDistance toRad jsAtan2
  norm_num [Real.sin_zero, Real.sqrt_zero, Real.sqrt_one, Real.arctan_zero]

/-- C5 counterexample: a Landmark with radius exactly 0 centered at (0,0)
does not contain the point (0,0), although the haversine distance from its
center to that point (namely 0) is ≤ its radius.  The claim's first conjunct
(`containsPoint` true iff distance ≤ radius) therefore fails as stated. -/
theorem c5_counterexample :
    haversineDistance 0 0 0 0 ≤ (LandmarkData.mk (some 0) (some 0) 0).radius ∧
    ¬ containsPointReal (LandmarkData.mk (some 0) (some 0) 0) 0 0 := by
  constructor
  · rw [haversineDistance_self]
  · intro h
    rw [containsPointReal] at h
    simp at h

/-- C5 (amended): `containsPoint` returns true iff the landmark has both
coordinates, a strictly positive radius, and the haversine distance from its
center to the query point is at most the radius; consequently a landmark
with a non-positive radius or a missing coordinate never contains any
point. -/
theorem c5_containsPoint_characterization :
    (∀ (lm : LandmarkData) (plat plng : ℝ),
      containsPointReal lm plat plng ↔
        ∃ la ln, lm.lat = some la ∧ lm.lng = some ln ∧ 0 < lm.radius ∧
          haversineDistance la ln plat plng ≤ lm.radius) ∧
    (∀ (lm : LandmarkData) (plat plng : ℝ),
      lm.radius ≤ 0 ∨ lm.lat = none ∨ lm.lng = none →
        ¬ containsPointReal lm plat plng) := by
  have key : ∀ (lm : LandmarkData) (plat plng : ℝ),
      containsPointReal lm plat plng ↔
        ∃ la ln, lm.lat = some la ∧ lm.lng = some ln ∧ 0 < lm.radius ∧
          haversineDistance la ln plat plng ≤ lm.radius := by
    intro lm plat plng
    rw [containsPointReal]
    rcases hla : lm.lat with _ | la
    · simp [hla]
    · rcases hln : lm.lng with _ | ln
      · simp [hln]
      · by_cases hr : lm.radius ≤ 0
        · simp [hr, not_lt.mpr hr]
        · simp [hr, not_le.mp hr]
  refine ⟨key, ?_⟩
  intro lm plat plng hbad hc
  rcases (key lm plat plng).mp hc with ⟨la, ln, h1, h2, h3, _⟩
  rcases hbad with h | h | h
  · exact absurd h3 (not_lt.mpr h)
  · rw [h] at h1
    cases h1
  · rw [h] at h2
    cases h2

/-- Witness for the amended C5 theorem: a landmark with a missing latitude
never contains the origin. -/
theorem c5_witness :
    ¬ containsPointReal (LandmarkData.mk none (some 0) 5) 0 0 :=
  c5_containsPoint_characterization.2 (LandmarkData.mk none (some 0) 5) 0 0
    (Or.inr (Or.inl rfl))

/-! ## C7 — reparenting -/

/-- C7 counterexample: `moveTag` performs no cycle check.  Starting from the
acyclic two-row store where tag 2 is a child of tag 1, reparenting tag 1
under tag 2 (its own descendant) yields a store whose parent relation is
cyclic. -/
theorem c7_counterexample :
    Acyclic [TagRow.mk 1 "A" "common" none, TagRow.mk 2 "B" "common" (some 1)] ∧
    ¬ Acyclic (moveTag
        [TagRow.mk 1 "A" "common" none, TagRow.mk 2 "B" "common" (some 1)]
        1 (some 2)) := by
  constructor
  · refine ⟨fun n => n, ?_⟩
    intro t ht p hp
    fin_cases ht <;> simp_all
    omega
  · have hmove : moveTag
        [TagRow.mk 1 "A" "common" none, TagRow.mk 2 "B" "common" (some 1)]
        1 (some 2) =
        [TagRow.mk 1 "A" "common" (some 2),
         TagRow.mk 2 "B" "common" (some 1)] := by decide
    rw [hmove]
    rintro ⟨rank, hr⟩
    have h1 := hr (TagRow.mk 1 "A" "common" (some 2)) (by simp) 2 rfl
    have h2 := hr (TagRow.mk 2 "B" "common" (some 1)) (by simp) 1 rfl
    simp at h1 h2
    omega

/-- C7 (amended): `moveTag` only changes that node's parent reference — rows
with a different id are untouched, rows with the given id keep every field
except the parent, which becomes the new parent id; no cycle check is
performed, and (per the counterexample) a reparent can create a cycle. -/
theorem c7_moveTag_only_parent :
    ∀ (tags : List TagRow) (id : Nat) (pid : Option Nat),
      (moveTag tags id pid).length = tags.length ∧
      ∀ (i : Nat) (h : i < tags.length) (h2 : i < (moveTag tags id pid).length),
        ((moveTag tags id pid).get ⟨i, h2⟩).id = (tags.get ⟨i, h⟩).id ∧
        ((moveTag tags id pid).get ⟨i, h2⟩).name = (tags.get ⟨i, h⟩).name ∧
        ((moveTag tags id pid).get ⟨i, h2⟩).category =
          (tags.get ⟨i, h⟩).category ∧
        ((moveTag tags id pid).get ⟨i, h2⟩).parentId =
          (if (tags.get ⟨i, h⟩).id = id then pid
           else (tags.get ⟨i, h⟩).parentId) := by
  intro tags id pid
  refine ⟨by simp [moveTag], ?_⟩
  intro i h h2
  have hg : (moveTag tags id pid).get ⟨i, h2⟩ =
      (fun t => if t.id == id then { t with parentId := pid } else t)
        (tags.get ⟨i, h⟩) := by
    simp [moveTag]
  rw [hg]
  simp only [List.get_eq_getElem]
  by_cases hc : tags[i].id = id
  · simp [hc]
  · simp [hc]

/-- Witness for the amended C7 theorem at a concrete store: the moved row's
parent becomes the requested one and its other fields survive. -/
theorem c7_witness :
    (0 : Nat) < [TagRow.mk 1 "A" "common" none].length ∧
    ((moveTag [TagRow.mk 1 "A" "common" none] 1 (some 5)).get
        ⟨0, by decide⟩).parentId = some 5 := by
  refine ⟨by decide, ?_⟩
  have h := (c7_moveTag_only_parent [TagRow.mk 1 "A" "common" none] 1
      (some 5)).2 0 (by decide) (by decide)
  rw [h.2.2.2]
  decide

/-! ## C9 — rate-limited reverse geocoding -/

/-- C9 counterexample: on an HTTP 429 (`too many requests`) response the
handler issues exactly one external request, replies with the
`Unknown Location` sentinel, and leaves the cache untouched — the throttled
request is dropped, not requeued or retried. -/
theorem c9_counterexample :
    getCityName (GeoState.mk [] 0) "k" 2000 (GeoResponse.httpError 429) =
      GeoOutcome.mk "Unknown Location" (GeoState.mk [] 2000) 1 (some 2000) := by
  decide

/-- C9 (amended): under sequential invocation, a non-cached lookup fires at
least `geocodingInterval` (1.5 s) after the previous fetch and stamps the
fire time as the new `lastGeocodingTime`; but on HTTP 429 the handler
replies with the `Unknown Location` sentinel after that single fetch,
caches nothing, and performs no requeue or retry. -/
theorem c9_throttle_behavior :
    ∀ (st : GeoState) (key : String) (now : ℤ) (resp : GeoResponse),
      cacheLookup st.cache key = none →
      (∃ fire, (getCityName st key now resp).fetchTime = some fire ∧
        st.lastGeocodingTime + geocodingInterval ≤ fire ∧
        (getCityName st key now resp).state.lastGeocodingTime = fire) ∧
      ((getCityName st key now resp).fetchCount = 1) ∧
      (resp = GeoResponse.httpError 429 →
        (getCityName st key now resp).reply = "Unknown Location" ∧
        (getCityName st key now resp).state.cache = st.cache) := by
  intro st key now resp hmiss
  have hfire : ∀ fire, fire = (if now - st.lastGeocodingTime < geocodingInterval
      then st.lastGeocodingTime + geocodingInterval else now) →
      st.lastGeocodingTime + geocodingInterval ≤ fire := by
    intro fire hf
    rw [hf]
    split
    · omega
    · omega
  unfold getCityName
  rw [hmiss]
  rcases resp with name | status | _ | _ | _ <;>
    refine ⟨⟨_, rfl, hfire _ rfl, rfl⟩, rfl, ?_⟩ <;> simp

/-- Witness for the amended C9 theorem at concrete inputs. -/
theorem c9_witness :
    cacheLookup (GeoState.mk [] 100).cache "k" = none ∧
    ((getCityName (GeoState.mk [] 100) "k" 200 (GeoResponse.httpError 429)).reply
        = "Unknown Location") := by
  have h := c9_throttle_behavior (GeoState.mk [] 100) "k" 200
    (GeoResponse.httpError 429) (by decide)
  exact ⟨by decide, (h.2.2 rfl).1⟩

/-! ## C10 — a coordinate of exactly 0 is treated as absent -/

/-- A candidate without truthy coordinates never changes the running
nearest-candidate accumulator. -/
theorem nearestStep_skip (t : ℤ) (acc : Option (PhotoMeta × ℤ))
    (p : PhotoMeta) (h : isGeoTagged p = false) : nearestStep t acc p = acc := by
  unfold nearestStep
  rcases p.time with _ | pt
  · rfl
  · simp [h]

/-- C10: a latitude or longitude equal to 0 is treated as absent throughout
the pipeline — the metadata-extraction tail returns null for it, a candidate
carrying it is skipped by the temporal-proximity locator and excluded from
the geotagged pool (and such an asset is itself an inference target), and
the batch upsert stores NULL for it. -/
theorem c10_zero_coordinate_is_absent :
    (∀ m : ParsedExif, m.latitude = some 0 →
      (extractMetadataResult (some m)).lat = none) ∧
    (∀ m : ParsedExif, m.longitude = some 0 →
      (extractMetadataResult (some m)).lng = none) ∧
    (∀ p : PhotoMeta, p.lat = some 0 ∨ p.lng = some 0 →
      isGeoTagged p = false ∧
      (∀ (t : Option ℤ) (l1 l2 : List PhotoMeta),
        findNearestPhotoByTime t (l1 ++ p :: l2) =
          findNearestPhotoByTime t (l1 ++ l2)) ∧
      (∀ l : List PhotoMeta, p ∉ l.filter isGeoTagged) ∧
      (∀ (gps : List PhotoMeta) (np : PhotoMeta) (d : ℤ),
        findNearestPhotoByTime p.time gps = some (np, d) → d ≤ ONE_HOUR_MS →
        inferForPhoto gps p =
          { p with lat := np.lat, lng := np.lng,
                   geoSource := some "inferred" })) ∧
    (∀ p : PhotoMeta,
      (p.lat = some 0 → (mkPhotoRow p).lat = none) ∧
      (p.lng = some 0 → (mkPhotoRow p).lng = none)) := by
  have hgeo : ∀ p : PhotoMeta, p.lat = some 0 ∨ p.lng = some 0 →
      isGeoTagged p = false := by
    intro p hp
    rcases hp with h | h <;> simp [isGeoTagged, h, truthyNum]
  refine ⟨?_, ?_, ?_, ?_⟩
  · intro m hm
    simp [extractMetadataResult, jsOrNull, hm, truthyNum]
  · intro m hm
    simp [extractMetadataResult, jsOrNull, hm, truthyNum]
  · intro p hp
    have hg := hgeo p hp
    refine ⟨hg, ?_, ?_, ?_⟩
    · intro t l1 l2
      rcases t with _ | t
      · rfl
      · show (l1 ++ p :: l2).foldl (nearestStep t) none =
          (l1 ++ l2).foldl (nearestStep t) none
        rw [List.foldl_append, List.foldl_append, List.foldl_cons,
          nearestStep_skip t _ p hg]
    · intro l hl
      have := List.of_mem_filter hl
      rw [hg] at this
      cases this
    · intro gps np d hfind hle
      unfold inferForPhoto
      rw [hg, hfind]
      simp [hle]
  · intro p
    constructor
    · intro hp
      simp [mkPhotoRow, jsOrNull, hp, truthyNum]
    · intro hp
      simp [mkPhotoRow, jsOrNull, hp, truthyNum]

/-- Witness for C10 at concrete inputs: a parsed latitude of 0 comes out
null, and a photo row with latitude 0 is stored with a NULL latitude. -/
theorem c10_witness :
    (ParsedExif.mk (some 5) none (some 0) (some 3)).latitude = some 0 ∧
    (extractMetadataResult
        (some (ParsedExif.mk (some 5) none (some 0) (some 3)))).lat = none ∧
    (mkPhotoRow (PhotoMeta.mk "d" "f" (some 5) (some 0) (some 3) "photo"
        none)).lat = none := by
  refine ⟨rfl, ?_, ?_⟩
  · exact c10_zero_coordinate_is_absent.1
      (ParsedExif.mk (some 5) none (some 0) (some 3)) rfl
  · exact ((c10_zero_coordinate_is_absent.2.2.2
      (PhotoMeta.mk "d" "f" (some 5) (some 0) (some 3) "photo" none)).1 rfl)

/-! ## C2 — the temporal-proximity locator -/

/-- Eligibility for the nearest-by-time search: the candidate has a time and
truthy coordinates. -/
def eligible (p : PhotoMeta) : Bool :=
  p.time.isSome && isGeoTagged p

/-- Absolute time delta between the target and a candidate (0 for a
candidate without a time; only used for eligible candidates). -/
def delta (t : ℤ) (p : PhotoMeta) : ℤ :=
  match p.time with
  | some pt => |t - pt|
  | none => 0

/-- An ineligible candidate never changes the accumulator. -/
theorem nearestStep_not_eligible (t : ℤ) (acc : Option (PhotoMeta × ℤ))
    (p : PhotoMeta) (h : eligible p = false) : nearestStep t acc p = acc := by
  unfold nearestStep
  rcases hp : p.time with _ | pt
  · rfl
  · unfold eligible at h
    rw [hp] at h
    simp at h
    simp [h]

/-- An eligible candidate updates the accumulator exactly when its delta is
strictly smaller than the running minimum. -/
theorem nearestStep_eligible (t : ℤ) (acc : Option (PhotoMeta × ℤ))
    (p : PhotoMeta) (h : eligible p = true) :
    nearestStep t acc p =
      match acc with
      | none => some (p, delta t p)
      | some (q, m) =>
          if delta t p < m then some (p, delta t p) else some (q, m) := by
  unfold eligible at h
  rcases hp : p.time with _ | pt
  · rw [hp] at h
    simp at h
  · rw [hp] at h
    simp at h
    unfold nearestStep delta
    rw [hp]
    simp [h]
    rcases acc with _ | ⟨q, m⟩
    · rfl
    · rfl

/-- The fold returns none iff it started from none and saw no eligible
candidate. -/
theorem foldl_nearest_none_iff (t : ℤ) :
    ∀ (l : List PhotoMeta) (acc : Option (PhotoMeta × ℤ)),
      l.foldl (nearestStep t) acc = none ↔
        acc = none ∧ ∀ p ∈ l, eligible p = false := by
  intro l
  induction l with
  | nil => simp
  | cons p l ih =>
    intro acc
    rw [List.foldl_cons, ih]
    rcases he : eligible p with _ | _
    · rw [nearestStep_not_eligible t acc p he]
      constructor
      · rintro ⟨h1, h2⟩
        exact ⟨h1, by simpa [he] using h2⟩
      · rintro ⟨h1, h2⟩
        exact ⟨h1, fun q hq => h2 q (List.mem_cons_of_mem p hq)⟩
    · rw [nearestStep_eligible t acc p he]
      constructor
      · rintro ⟨h1, _⟩
        rcases acc with _ | ⟨q, m⟩
        · cases h1
        · simp only at h1
          by_cases hc : delta t p < m
          · rw [if_pos hc] at h1
            cases h1
          · rw [if_neg hc] at h1
            cases h1
      · rintro ⟨_, h2⟩
        have := h2 p (List.mem_cons_self p l)
        rw [he] at this
        cases this

/-- The running minimum never increases along the fold. -/
theorem foldl_nearest_min_le (t : ℤ) :
    ∀ (l : List PhotoMeta) (q : PhotoMeta) (m : ℤ) (c : PhotoMeta) (d : ℤ),
      l.foldl (nearestStep t) (some (q, m)) = some (c, d) → d ≤ m := by
  intro l
  induction l with
  | nil =>
    intro q m c d h
    rw [List.foldl_nil] at h
    cases h
    exact le_refl m
  | cons p l ih =>
    intro q m c d h
    rw [List.foldl_cons] at h
    rcases he : eligible p with _ | _
    · rw [nearestStep_not_eligible t _ p he] at h
      exact ih q m c d h
    · rw [nearestStep_eligible t _ p he] at h
      simp only at h
      by_cases hlt : delta t p < m
      · rw [if_pos hlt] at h
        have := ih p (delta t p) c d h
        omega
      · rw [if_neg hlt] at h
        exact ih q m c d h

/-- The fold result bounds the delta of every eligible member of the list. -/
theorem foldl_nearest_min (t : ℤ) :
    ∀ (l : List PhotoMeta) (acc : Option (PhotoMeta × ℤ)) (c : PhotoMeta)
      (d : ℤ),
      l.foldl (nearestStep t) acc = some (c, d) →
      ∀ p ∈ l, eligible p = true → d ≤ delta t p := by
  intro l
  induction l with
  | nil =>
    intro acc c d _ p hp
    cases hp
  | cons x l ih =>
    intro acc c d h p hp he
    rw [List.foldl_cons] at h
    rcases List.mem_cons.mp hp with rfl | hmem
    · rw [nearestStep_eligible t acc p he] at h
      rcases acc with _ | ⟨q, m⟩
      · simp only at h
        exact foldl_nearest_min_le t l p (delta t p) c d h
      · simp only at h
        by_cases hlt : delta t p < m
        · rw [if_pos hlt] at h
          exact foldl_nearest_min_le t l p (delta t p) c d h
        · rw [if_neg hlt] at h
          have := foldl_nearest_min_le t l q m c d h
          omega
    · exact ih (nearestStep t acc x) c d h p hmem he

/-- The fold result is the accumulator or an eligible list member paired with
its own delta. -/
theorem foldl_nearest_shape (t : ℤ) :
    ∀ (l : List PhotoMeta) (acc : Option (PhotoMeta × ℤ)) (c : PhotoMeta)
      (d : ℤ),
      l.foldl (nearestStep t) acc = some (c, d) →
      acc = some (c, d) ∨ (c ∈ l ∧ eligible c = true ∧ d = delta t c) := by
  intro l
  induction l with
  | nil =>
    intro acc c d h
    rw [List.foldl_nil] at h
    exact Or.inl h
  | cons p l ih =>
    intro acc c d h
    rw [List.foldl_cons] at h
    rcases ih (nearestStep t acc p) c d h with hacc | ⟨hm, he, hd⟩
    · rcases heli : eligible p with _ | _
      · rw [nearestStep_not_eligible t acc p heli] at hacc
        exact Or.inl hacc
      · rw [nearestStep_eligible t acc p heli] at hacc
        rcases acc with _ | ⟨q, m⟩
        · simp only at hacc
          cases hacc
          exact Or.inr ⟨List.mem_cons_self _ _, heli, rfl⟩
        · simp only at hacc
          by_cases hlt : delta t p < m
          · rw [if_pos hlt] at hacc
            cases hacc
            exact Or.inr ⟨List.mem_cons_self _ _, heli, rfl⟩
          · rw [if_neg hlt] at hacc
            exact Or.inl hacc
    · exact Or.inr ⟨List.mem_cons_of_mem p hm, he, hd⟩

/-- First-at-minimum, accumulator version: the fold either keeps the
accumulator or returns a list member that strictly beats both the
accumulator and every eligible candidate before it. -/
theorem foldl_nearest_first (t : ℤ) :
    ∀ (l : List PhotoMeta) (q : PhotoMeta) (m : ℤ) (c : PhotoMeta) (d : ℤ),
      l.foldl (nearestStep t) (some (q, m)) = some (c, d) →
      (c = q ∧ d = m) ∨
      (∃ l1 l2, l = l1 ++ c :: l2 ∧ eligible c = true ∧ d = delta t c ∧
        d < m ∧ ∀ p ∈ l1, eligible p = true → d < delta t p) := by
  intro l
  induction l with
  | nil =>
    intro q m c d h
    rw [List.foldl_nil] at h
    cases h
    exact Or.inl ⟨rfl, rfl⟩
  | cons p l ih =>
    intro q m c d h
    rw [List.foldl_cons] at h
    rcases heli : eligible p with _ | _
    · rw [nearestStep_not_eligible t _ p heli] at h
      rcases ih q m c d h with h1 | ⟨l1, l2, hsplit, he, hd, hlt, hall⟩
      · exact Or.inl h1
      · refine Or.inr ⟨p :: l1, l2, by simp [hsplit], he, hd, hlt, ?_⟩
        intro x hx hex
        rcases List.mem_cons.mp hx with rfl | hx2
        · rw [heli] at hex
          cases hex
        · exact hall x hx2 hex
    · rw [nearestStep_eligible t _ p heli] at h
      simp only at h
      by_cases hlt : delta t p < m
      · rw [if_pos hlt] at h
        rcases ih p (delta t p) c d h with ⟨rfl, rfl⟩ |
            ⟨l1, l2, hsplit, he, hd, hlt2, hall⟩
        · exact Or.inr ⟨[], l, rfl, heli, rfl, hlt, by simp⟩
        · refine Or.inr ⟨p :: l1, l2, by simp [hsplit], he, hd, by omega, ?_⟩
          intro x hx hex
          rcases List.mem_cons.mp hx with rfl | hx2
          · omega
          · exact hall x hx2 hex
      · rw [if_neg hlt] at h
        rcases ih q m c d h with h1 | ⟨l1, l2, hsplit, he, hd, hlt2, hall⟩
        · exact Or.inl h1
        · refine Or.inr ⟨p :: l1, l2, by simp [hsplit], he, hd, hlt2, ?_⟩
          intro x hx hex
          rcases List.mem_cons.mp hx with rfl | hx2
          · omega
          · exact hall x hx2 hex

/-- First-at-minimum from the empty accumulator. -/
theorem foldl_nearest_first_none (t : ℤ) :
    ∀ (l : List PhotoMeta) (c : PhotoMeta) (d : ℤ),
      l.foldl (nearestStep t) none = some (c, d) →
      ∃ l1 l2, l = l1 ++ c :: l2 ∧ eligible c = true ∧ d = delta t c ∧
        ∀ p ∈ l1, eligible p = true → d < delta t p := by
  intro l
  induction l with
  | nil =>
    intro c d h
    cases h
  | cons p l ih =>
    intro c d h
    rw [List.foldl_cons] at h
    rcases heli : eligible p with _ | _
    · rw [nearestStep_not_eligible t _ p heli] at h
      rcases ih c d h with ⟨l1, l2, hsplit, he, hd, hall⟩
      refine ⟨p :: l1, l2, by simp [hsplit], he, hd, ?_⟩
      intro x hx hex
      rcases List.mem_cons.mp hx with rfl | hx2
      · rw [heli] at hex
        cases hex
      · exact hall x hx2 hex
    · rw [nearestStep_eligible t _ p heli] at h
      simp only at h
      rcases foldl_nearest_first t l p (delta t p) c d h with ⟨rfl, rfl⟩ |
          ⟨l1, l2, hsplit, he, hd, hlt, hall⟩
      · exact ⟨[], l, rfl, heli, rfl, by simp⟩
      · refine ⟨p :: l1, l2, by simp [hsplit], he, hd, ?_⟩
        intro x hx hex
        rcases List.mem_cons.mp hx with rfl | hx2
        · omega
        · exact hall x hx2 hex

/-- C2: the locator returns the first candidate in list order, among
candidates with a time and truthy coordinates, minimizing the absolute time
delta (ties to the earlier candidate); it returns none exactly when no
eligible candidate exists (or there is no target time); and the orchestrator
copies the found candidate's coordinates with provenance `inferred` exactly
when the delta is at most one hour, leaving the asset unchanged otherwise. -/
theorem c2_nearest_locator :
    ∀ (t : ℤ) (l : List PhotoMeta) (c : PhotoMeta) (d : ℤ)
      (gps : List PhotoMeta) (photo : PhotoMeta),
      (findNearestPhotoByTime (some t) l = some (c, d) →
        c ∈ l ∧ eligible c = true ∧ d = delta t c ∧
        (∀ p ∈ l, eligible p = true → d ≤ delta t p) ∧
        ∃ l1 l2, l = l1 ++ c :: l2 ∧
          ∀ p ∈ l1, eligible p = true → d < delta t p) ∧
      (findNearestPhotoByTime (some t) l = none ↔
        ∀ p ∈ l, eligible p = false) ∧
      (findNearestPhotoByTime none l = none) ∧
      (isGeoTagged photo = false →
        (findNearestPhotoByTime photo.time gps = some (c, d) →
          (d ≤ ONE_HOUR_MS →
            inferForPhoto gps photo =
              { photo with lat := c.lat, lng := c.lng,
                           geoSource := some "inferred" }) ∧
          (ONE_HOUR_MS < d → inferForPhoto gps photo = photo)) ∧
        (findNearestPhotoByTime photo.time gps = none →
          inferForPhoto gps photo = photo)) ∧
      (isGeoTagged photo = true → inferForPhoto gps photo = photo) := by
  intro t l c d gps photo
  refine ⟨?_, ?_, rfl, ?_, ?_⟩
  · intro h
    have hfold : l.foldl (nearestStep t) none = some (c, d) := h
    rcases foldl_nearest_first_none t l c d hfold with
      ⟨l1, l2, hsplit, he, hd, hall⟩
    refine ⟨?_, he, hd, foldl_nearest_min t l none c d hfold, l1, l2, hsplit,
      hall⟩
    rw [hsplit]
    exact List.mem_append_right l1 (List.mem_cons_self _ _)
  · show l.foldl (nearestStep t) none = none ↔ _
    rw [foldl_nearest_none_iff]
    simp
  · intro hg
    constructor
    · intro hfind
      constructor
      · intro hle
        unfold inferForPhoto
        rw [hg, hfind]
        simp [hle]
      · intro hgt
        unfold inferForPhoto
        rw [hg, hfind]
        have : ¬ d ≤ ONE_HOUR_MS := by omega
        simp [this]
    · intro hfind
      unfold inferForPhoto
      rw [hg, hfind]
      simp
  · intro hg
    unfold inferForPhoto
    rw [hg]
    simp

/-- Witness for C2 at concrete inputs: among two eligible candidates at
deltas 10 and 5 the second wins, and the inference step copies its
coordinates with provenance `inferred`. -/
theorem c2_witness :
    (PhotoMeta.mk "d" "b" (some 105) (some 2) (some 3) "photo" none) ∈
      [PhotoMeta.mk "d" "a" (some 110) (some 1) (some 1) "photo" none,
       PhotoMeta.mk "d" "b" (some 105) (some 2) (some 3) "photo" none] ∧
    inferForPhoto
      [PhotoMeta.mk "d" "a" (some 110) (some 1) (some 1) "photo" none,
       PhotoMeta.mk "d" "b" (some 105) (some 2) (some 3) "photo" none]
      (PhotoMeta.mk "d" "t" (some 100) none none "photo" none) =
      PhotoMeta.mk "d" "t" (some 100) (some 2) (some 3) "photo"
        (some "inferred") := by
  have hfind : findNearestPhotoByTime
      (PhotoMeta.mk "d" "t" (some 100) none none "photo" none).time
      [PhotoMeta.mk "d" "a" (some 110) (some 1) (some 1) "photo" none,
       PhotoMeta.mk "d" "b" (some 105) (some 2) (some 3) "photo" none] =
      some (PhotoMeta.mk "d" "b" (some 105) (some 2) (some 3) "photo" none,
        5) := by decide
  have h := c2_nearest_locator 100
    [PhotoMeta.mk "d" "a" (some 110) (some 1) (some 1) "photo" none,
     PhotoMeta.mk "d" "b" (some 105) (some 2) (some 3) "photo" none]
    (PhotoMeta.mk "d" "b" (some 105) (some 2) (some 3) "photo" none) 5
    [PhotoMeta.mk "d" "a" (some 110) (some 1) (some 1) "photo" none,
     PhotoMeta.mk "d" "b" (some 105) (some 2) (some 3) "photo" none]
    (PhotoMeta.mk "d" "t" (some 100) none none "photo" none)
  refine ⟨(h.1 hfind).1, ?_⟩
  exact ((h.2.2.2.1 (by decide)).1 hfind).1 (by decide)

/-! ## Walker state-evolution lemmas -/

/-- The walk only ever appends: to the visited set, the instrumentation
list, the `directories` table and the file list; it never touches the
`photos` table. -/
def StateExtends (s s2 : WalkState) : Prop :=
  (∃ v, s2.visited = s.visited ++ v) ∧
  (∃ e, s2.entered = s.entered ++ e) ∧
  (∃ dd, s2.db.dirs = s.db.dirs ++ dd) ∧
  s2.db.photos = s.db.photos ∧
  (∃ f, s2.files = s.files ++ f)

theorem StateExtends.rfl (s : WalkState) : StateExtends s s :=
  ⟨⟨[], by simp⟩, ⟨[], by simp⟩, ⟨[], by simp⟩, Eq.refl _, ⟨[], by simp⟩⟩

theorem StateExtends.trans {s1 s2 s3 : WalkState}
    (h1 : StateExtends s1 s2) (h2 : StateExtends s2 s3) :
    StateExtends s1 s3 := by
  obtain ⟨⟨v1, hv1⟩, ⟨e1, he1⟩, ⟨d1, hd1⟩, hp1, ⟨f1, hf1⟩⟩ := h1
  obtain ⟨⟨v2, hv2⟩, ⟨e2, he2⟩, ⟨d2, hd2⟩, hp2, ⟨f2, hf2⟩⟩ := h2
  refine ⟨⟨v1 ++ v2, ?_⟩, ⟨e1 ++ e2, ?_⟩, ⟨d1 ++ d2, ?_⟩, ?_, ⟨f1 ++ f2, ?_⟩⟩
  · rw [hv2, hv1, List.append_assoc]
  · rw [he2, he1, List.append_assoc]
  · rw [hd2, hd1, List.append_assoc]
  · rw [hp2, hp1]
  · rw [hf2, hf1, List.append_assoc]

theorem addDirectory_photos (db : Db) (p : String) :
    (addDirectory db p).photos = db.photos := by
  unfold addDirectory
  split <;> rfl

theorem addDirectory_dirs_extends (db : Db) (p : String) :
    ∃ dd, (addDirectory db p).dirs = db.dirs ++ dd := by
  unfold addDirectory
  split
  · exact ⟨[], by simp⟩
  · exact ⟨[⟨p, none⟩], Eq.refl _⟩

theorem hasDirectory_addDirectory_self (db : Db) (p : String) :
    hasDirectory (addDirectory db p) p = true := by
  unfold addDirectory
  split
  · assumption
  · unfold hasDirectory
    simp

theorem hasDirectory_append (db : Db) (dd : List DirRow) (p : String)
    (h : hasDirectory db p = true) :
    hasDirectory (Db.mk (db.dirs ++ dd) db.photos) p = true := by
  unfold hasDirectory at h ⊢
  simp only [List.any_append]
  rw [h]
  rfl

theorem StateExtends.hasDirectory_mono {s s2 : WalkState} (h : StateExtends s s2)
    {p : String} (hp : hasDirectory s.db p = true) :
    hasDirectory s2.db p = true := by
  obtain ⟨_, _, ⟨dd, hdd⟩, hph, _⟩ := h
  unfold hasDirectory at hp ⊢
  rw [hdd, List.any_append, hp]
  rfl

theorem StateExtends.entered_mono {s s2 : WalkState} (h : StateExtends s s2)
    {p : String} (hp : p ∈ s.entered) : p ∈ s2.entered := by
  obtain ⟨_, ⟨e, he⟩, _, _, _⟩ := h
  rw [he]
  exact List.mem_append_left e hp

theorem StateExtends.files_mono {s s2 : WalkState} (h : StateExtends s s2)
    {x : FileItem} (hx : x ∈ s.files) : x ∈ s2.files := by
  obtain ⟨_, _, _, _, ⟨f, hf⟩⟩ := h
  rw [hf]
  exact List.mem_append_left f hx

theorem visitDir_extends (s : WalkState) (rel : String) :
    StateExtends s (visitDir s rel) :=
  ⟨⟨[rel], Eq.refl _⟩, ⟨[rel], Eq.refl _⟩, ⟨[], by simp [visitDir]⟩,
    Eq.refl _, ⟨[], by simp [visitDir]⟩⟩

theorem addDb_extends (s : WalkState) (rel : String) :
    StateExtends s { s with db := addDirectory s.db rel } := by
  obtain ⟨dd, hdd⟩ := addDirectory_dirs_extends s.db rel
  exact ⟨⟨[], by simp⟩, ⟨[], by simp⟩, ⟨dd, hdd⟩,
    addDirectory_photos s.db rel, ⟨[], by simp⟩⟩

theorem sizeOf_rest_lt (e : FsEntry) (rest : List FsEntry) :
    sizeOf rest < sizeOf (e :: rest) := by
  simp only [List.cons.sizeOf_spec]
  omega

theorem sizeOf_sub_lt (name : String) (sub rest : List FsEntry) :
    sizeOf sub < sizeOf (FsEntry.dir name sub :: rest) := by
  simp only [List.cons.sizeOf_spec, FsEntry.dir.sizeOf_spec]
  omega

/-- The walk only extends the state. -/
theorem walkEntries_extends (skip : Bool) :
    ∀ (rel : String) (s : WalkState) (l : List FsEntry),
      StateExtends s (walkEntries skip rel s l) := by
  suffices H : ∀ (n : Nat) (rel : String) (s : WalkState) (l : List FsEntry),
      sizeOf l < n → StateExtends s (walkEntries skip rel s l) by
    intro rel s l
    exact H (sizeOf l + 1) rel s l (by omega)
  intro n
  induction n with
  | zero =>
    intro rel s l h
    omega
  | succ n ihn =>
    intro rel s l hl
    match l with
    | [] =>
      rw [walkEntries_nil]
      exact StateExtends.rfl s
    | FsEntry.file name :: rest =>
      rw [walkEntries_file]
      refine StateExtends.trans ?_
        (ihn rel _ rest (by have := sizeOf_rest_lt (FsEntry.file name) rest; omega))
      split
      · exact ⟨⟨[], by simp⟩, ⟨[], by simp⟩, ⟨[], by simp⟩, Eq.refl _,
          ⟨[⟨rel, name⟩], Eq.refl _⟩⟩
      · exact StateExtends.rfl s
    | FsEntry.symlink name :: rest =>
      rw [walkEntries_symlink]
      exact ihn rel s rest
        (by have := sizeOf_rest_lt (FsEntry.symlink name) rest; omega)
    | FsEntry.dir name sub :: rest =>
      rw [walkEntries_dir]
      refine StateExtends.trans ?_ (ihn rel _ rest
        (by have := sizeOf_rest_lt (FsEntry.dir name sub) rest; omega))
      by_cases h1 : isSpecialDir name
      · simp only [h1, if_true]
        exact StateExtends.rfl s
      · simp only [h1, Bool.false_eq_true, if_false]
        by_cases h2 : skip && hasDirectory s.db (joinPath rel name)
        · simp only [h2, if_true]
          exact StateExtends.rfl s
        · simp only [h2, Bool.false_eq_true, if_false]
          by_cases h3 : ({ s with db := addDirectory s.db (joinPath rel name) } :
              WalkState).visited.contains (joinPath rel name)
          · simp only [h3, if_true]
            exact addDb_extends s (joinPath rel name)
          · simp only [h3, Bool.false_eq_true, if_false]
            refine StateExtends.trans (addDb_extends s (joinPath rel name)) ?_
            refine StateExtends.trans
              (visitDir_extends _ (joinPath rel name)) ?_
            exact ihn (joinPath rel name) _ sub
              (by have := sizeOf_sub_lt name sub rest; omega)

/-- Every real, non-special subdirectory of a walked directory is registered
in the `directories` table by the time the walk returns (the registration
happens before the prune test can ever see it again: a pruned subdirectory
was registered already, an entered one is registered on the spot). -/
theorem walk_registers_dirs (skip : Bool) (rel : String) :
    ∀ (l : List FsEntry) (s : WalkState) (name : String) (sub : List FsEntry),
      FsEntry.dir name sub ∈ l → isSpecialDir name = false →
      hasDirectory (walkEntries skip rel s l).db (joinPath rel name) = true := by
  intro l
  induction l with
  | nil =>
    intro s name sub h _
    cases h
  | cons x rest ih =>
    intro s name sub hmem hns
    rcases List.mem_cons.mp hmem with heq | hmem2
    · cases heq
      rw [walkEntries_dir]
      refine (walkEntries_extends skip rel _ rest).hasDirectory_mono ?_
      simp only [hns, Bool.false_eq_true, if_false]
      by_cases h2 : skip && hasDirectory s.db (joinPath rel name)
      · simp only [h2, if_true]
        exact (Bool.and_eq_true_iff.mp h2).2
      · simp only [h2, Bool.false_eq_true, if_false]
        by_cases h3 : ({ s with db := addDirectory s.db (joinPath rel name) } :
            WalkState).visited.contains (joinPath rel name)
        · simp only [h3, if_true]
          exact hasDirectory_addDirectory_self s.db _
        · simp only [h3, Bool.false_eq_true, if_false]
          refine (walkEntries_extends skip _ _ sub).hasDirectory_mono ?_
          exact hasDirectory_addDirectory_self s.db _
    · match x with
      | FsEntry.file n =>
        rw [walkEntries_file]
        exact ih _ name sub hmem2 hns
      | FsEntry.symlink n =>
        rw [walkEntries_symlink]
        exact ih _ name sub hmem2 hns
      | FsEntry.dir n nsub =>
        rw [walkEntries_dir]
        exact ih _ name sub hmem2 hns

/-- Every media file of a walked directory itself ends up in the collected
file list. -/
theorem walk_collects_files (skip : Bool) (rel : String) :
    ∀ (l : List FsEntry) (s : WalkState) (name : String),
      FsEntry.file name ∈ l → isMediaFile name = true →
      (⟨rel, name⟩ : FileItem) ∈ (walkEntries skip rel s l).files := by
  intro l
  induction l with
  | nil =>
    intro s name h _
    cases h
  | cons x rest ih =>
    intro s name hmem hm
    rcases List.mem_cons.mp hmem with heq | hmem2
    · cases heq
      rw [walkEntries_file]
      refine (walkEntries_extends skip rel _ rest).files_mono ?_
      simp only [hm, if_true]
      exact List.mem_append_right s.files (List.mem_singleton_self _)
    · match x with
      | FsEntry.file n =>
        rw [walkEntries_file]
        exact ih _ name hmem2 hm
      | FsEntry.symlink n =>
        rw [walkEntries_symlink]
        exact ih _ name hmem2 hm
      | FsEntry.dir n nsub =>
        rw [walkEntries_dir]
        exact ih _ name hmem2 hm

/-- The media files sitting directly in a directory (not in subdirectories). -/
def rootMedia (rel : String) (l : List FsEntry) : List FileItem :=
  l.filterMap (fun e =>
    match e with
    | FsEntry.file n => if isMediaFile n then some ⟨rel, n⟩ else none
    | _ => none)

/-- When every real, non-special subdirectory of the walked directory is
already registered and skip-scanned mode is on, the walk prunes all of them:
it only collects the directory's own media files and changes nothing else. -/
theorem walk_all_pruned (rel : String) :
    ∀ (l : List FsEntry) (s : WalkState),
      (∀ name sub, FsEntry.dir name sub ∈ l → isSpecialDir name = false →
        hasDirectory s.db (joinPath rel name) = true) →
      walkEntries true rel s l =
        { s with files := s.files ++ rootMedia rel l } := by
  intro l
  induction l with
  | nil =>
    intro s _
    rw [walkEntries_nil]
    simp [rootMedia]
  | cons x rest ih =>
    intro s hreg
    have hrest : ∀ (s2 : WalkState), s2.db = s.db →
        ∀ name sub, FsEntry.dir name sub ∈ rest → isSpecialDir name = false →
        hasDirectory s2.db (joinPath rel name) = true := by
      intro s2 hdb name sub hmem hns
      rw [hdb]
      exact hreg name sub (List.mem_cons_of_mem _ hmem) hns
    match x with
    | FsEntry.file n =>
      rw [walkEntries_file]
      by_cases hm : isMediaFile n
      · simp only [hm, if_true]
        refine Eq.trans (ih _ (hrest _ (Eq.refl _))) ?_
        simp [rootMedia, hm]
      · simp only [hm, Bool.false_eq_true, if_false]
        refine Eq.trans (ih _ (hrest _ (Eq.refl _))) ?_
        simp [rootMedia, hm]
    | FsEntry.symlink n =>
      rw [walkEntries_symlink]
      refine Eq.trans (ih _ (hrest _ (Eq.refl _))) ?_
      simp [rootMedia]
    | FsEntry.dir n nsub =>
      rw [walkEntries_dir]
      by_cases hns : isSpecialDir n
      · simp only [hns, if_true]
        refine Eq.trans (ih _ (hrest _ (Eq.refl _))) ?_
        simp [rootMedia]
      · have hr := hreg n nsub (List.mem_cons_self _ _) (by simpa using hns)
        simp only [hns, Bool.false_eq_true, if_false, hr, Bool.and_self,
          if_true]
        refine Eq.trans (ih _ (hrest _ (Eq.refl _))) ?_
        simp [rootMedia]

/-- The walk never enters the same canonical path twice: the instrumentation
list of entered directories stays duplicate-free, and stays inside the
visited set. -/
theorem walk_entered_invariant (skip : Bool) :
    ∀ (rel : String) (s : WalkState) (l : List FsEntry),
      s.entered.Nodup → (∀ p ∈ s.entered, p ∈ s.visited) →
      (walkEntries skip rel s l).entered.Nodup ∧
        ∀ p ∈ (walkEntries skip rel s l).entered,
          p ∈ (walkEntries skip rel s l).visited := by
  suffices H : ∀ (n : Nat) (rel : String) (s : WalkState) (l : List FsEntry),
      sizeOf l < n →
      s.entered.Nodup → (∀ p ∈ s.entered, p ∈ s.visited) →
      (walkEntries skip rel s l).entered.Nodup ∧
        ∀ p ∈ (walkEntries skip rel s l).entered,
          p ∈ (walkEntries skip rel s l).visited by
    intro rel s l
    exact H (sizeOf l + 1) rel s l (by omega)
  intro n
  induction n with
  | zero =>
    intro rel s l h
    omega
  | succ n ihn =>
    intro rel s l hl hnd hsub
    match l with
    | [] =>
      rw [walkEntries_nil]
      exact ⟨hnd, hsub⟩
    | FsEntry.file name :: rest =>
      rw [walkEntries_file]
      refine ihn rel _ rest
        (by have := sizeOf_rest_lt (FsEntry.file name) rest; omega) ?_ ?_
      · split <;> exact hnd
      · split <;> exact hsub
    | FsEntry.symlink name :: rest =>
      rw [walkEntries_symlink]
      exact ihn rel s rest
        (by have := sizeOf_rest_lt (FsEntry.symlink name) rest; omega) hnd hsub
    | FsEntry.dir name sub :: rest =>
      rw [walkEntries_dir]
      have hrest : sizeOf rest < n := by
        have := sizeOf_rest_lt (FsEntry.dir name sub) rest
        omega
      by_cases h1 : isSpecialDir name
      · simp only [h1, if_true]
        exact ihn rel s rest hrest hnd hsub
      · simp only [h1, Bool.false_eq_true, if_false]
        by_cases h2 : skip && hasDirectory s.db (joinPath rel name)
        · simp only [h2, if_true]
          exact ihn rel s rest hrest hnd hsub
        · simp only [h2, Bool.false_eq_true, if_false]
          by_cases h3 : ({ s with db := addDirectory s.db (joinPath rel name) } :
              WalkState).visited.contains (joinPath rel name)
          · simp only [h3, if_true]
            exact ihn rel _ rest hrest hnd hsub
          · simp only [h3, Bool.false_eq_true, if_false]
            have hnv : joinPath rel name ∉ s.visited := by
              simpa using h3
            have hne : joinPath rel name ∉ s.entered :=
              fun hin => hnv (hsub _ hin)
            have hstep := ihn (joinPath rel name)
              (visitDir { s with db := addDirectory s.db (joinPath rel name) }
                (joinPath rel name)) sub
              (by have := sizeOf_sub_lt name sub rest; omega)
              (by simp [visitDir, List.nodup_append, List.disjoint_singleton,
                hnd, hne])
              (by
                intro p hp
                simp only [visitDir, List.mem_append, List.mem_singleton] at hp ⊢
                rcases hp with hp | hp
                · exact Or.inl (hsub p hp)
                · exact Or.inr hp)
            exact ihn rel _ rest hrest hstep.1 hstep.2

/-! ## C8 — cycle safety of the walk -/

/-- C8: the walk (a total function of the finite file tree, so it terminates
on every input, symlinked cycles included, because symbolic links are
skipped before ever being resolved) visits every real directory at most
once: the entered-directory trace of a full walk from a fresh state is
duplicate-free; a symbolic link entry is skipped with no effect at all; and
a subdirectory whose canonical path is already in the current walk's visited
set is skipped (only its registration side effect happens). -/
theorem c8_walk_cycle_safe :
    ∀ (skip : Bool) (entries : List FsEntry) (db : Db),
      (getAllFilesRecursively skip entries
        (WalkState.mk [] [] db [])).entered.Nodup ∧
      (∀ (rel : String) (s : WalkState) (name : String) (rest : List FsEntry),
        walkEntries skip rel s (FsEntry.symlink name :: rest) =
          walkEntries skip rel s rest) ∧
      (∀ (rel : String) (s : WalkState) (name : String)
          (sub rest : List FsEntry),
        isSpecialDir name = false →
        (skip && hasDirectory s.db (joinPath rel name)) = false →
        s.visited.contains (joinPath rel name) = true →
        walkEntries skip rel s (FsEntry.dir name sub :: rest) =
          walkEntries skip rel
            { s with db := addDirectory s.db (joinPath rel name) } rest) := by
  intro skip entries db
  refine ⟨?_, fun rel s name rest => walkEntries_symlink skip rel s name rest,
    ?_⟩
  · unfold getAllFilesRecursively
    have hc : (WalkState.mk [] [] db []).visited.contains "" = false := by
      simp
    simp only [hc, Bool.false_eq_true, if_false]
    refine (walk_entered_invariant skip "" _ entries ?_ ?_).1
    · simp [visitDir]
    · intro p hp
      simp only [visitDir, List.nil_append, List.mem_singleton] at hp ⊢
      exact hp
  · intro rel s name sub rest hns hpr hv
    rw [walkEntries_dir]
    simp only [hns, Bool.false_eq_true, if_false, hpr]
    have hv2 : ({ s with db := addDirectory s.db (joinPath rel name) } :
        WalkState).visited.contains (joinPath rel name) = true := hv
    simp only [hv2, if_true]

/-- Witness for C8 at concrete inputs: a symlink entry pointing anywhere
(including back at an ancestor) is skipped outright, and an
already-visited directory is skipped. -/
theorem c8_witness :
    (walkEntries true "" (WalkState.mk [""] [""] (Db.mk [] []) [])
        [FsEntry.symlink "loop"] =
      walkEntries true "" (WalkState.mk [""] [""] (Db.mk [] []) []) []) ∧
    (walkEntries true "" (WalkState.mk ["", "a"] [""] (Db.mk [] []) [])
        [FsEntry.dir "a" [FsEntry.file "x.jpg"]] =
      walkEntries true ""
        { (WalkState.mk ["", "a"] [""] (Db.mk [] []) []) with
            db := addDirectory (Db.mk [] []) (joinPath "" "a") } []) := by
  have h := c8_walk_cycle_safe true [] (Db.mk [] [])
  refine ⟨h.2.1 "" _ "loop" [], ?_⟩
  exact h.2.2 "" (WalkState.mk ["", "a"] [""] (Db.mk [] []) []) "a"
    [FsEntry.file "x.jpg"] [] (by decide) (by decide) (by decide)

/-! ## C4 — skip-scanned pruning -/

/-- C4 counterexample: a subdirectory that is registered in the catalog but
has never completed a scan (`last_scan_time` null, so `isDirectoryScanned`
is false) is still pruned — the walk neither enters it nor collects its
media file, contradicting the claim that only already-scanned directories
are pruned. -/
theorem c4_counterexample :
    isDirectoryScanned (Db.mk [DirRow.mk "a" none] []) "a" = false ∧
    walkEntries true "" (WalkState.mk [""] [""] (Db.mk [DirRow.mk "a" none] []) [])
        [FsEntry.dir "a" [FsEntry.file "x.jpg"]] =
      WalkState.mk [""] [""] (Db.mk [DirRow.mk "a" none] []) [] := by
  constructor
  · decide
  · rw [walkEntries_dir]
    simp only [show isSpecialDir "a" = false from by decide,
      Bool.false_eq_true, if_false,
      show (true && hasDirectory (Db.mk [DirRow.mk "a" none] [])
        (joinPath "" "a")) = true from by decide, if_true]
    rw [walkEntries_nil]

/-- C4 (amended): with `skipScanned` on, a subdirectory's subtree is pruned
before recursion iff the catalog has a `directories` row for its relative
path (`hasDirectory`) — regardless of whether that row has ever been marked
scanned; an unregistered subdirectory is entered. -/
theorem c4_prune_iff_registered :
    ∀ (rel : String) (s : WalkState) (name : String) (sub rest : List FsEntry),
      isSpecialDir name = false →
      (hasDirectory s.db (joinPath rel name) = true →
        walkEntries true rel s (FsEntry.dir name sub :: rest) =
          walkEntries true rel s rest) ∧
      (hasDirectory s.db (joinPath rel name) = false →
        s.visited.contains (joinPath rel name) = false →
        joinPath rel name ∈
          (walkEntries true rel s (FsEntry.dir name sub :: rest)).entered) := by
  intro rel s name sub rest hns
  constructor
  · intro hreg
    rw [walkEntries_dir]
    simp only [hns, Bool.false_eq_true, if_false, hreg, Bool.and_self, if_true]
  · intro hreg hv
    rw [walkEntries_dir]
    have hv2 : ({ s with db := addDirectory s.db (joinPath rel name) } :
        WalkState).visited.contains (joinPath rel name) = false := hv
    simp only [hns, Bool.false_eq_true, if_false, hreg, Bool.and_false, hv2]
    refine (walkEntries_extends true rel _ rest).entered_mono ?_
    refine (walkEntries_extends true (joinPath rel name) _ sub).entered_mono ?_
    simp [visitDir]

/-- Witness for the amended C4 theorem: an unregistered subdirectory of a
fresh root is entered by the walk. -/
theorem c4_witness :
    joinPath "" "a" ∈
      (walkEntries true "" (WalkState.mk [""] [""] (Db.mk [] []) [])
        [FsEntry.dir "a" [FsEntry.file "x.jpg"]]).entered :=
  (c4_prune_iff_registered "" (WalkState.mk [""] [""] (Db.mk [] []) []) "a"
    [FsEntry.file "x.jpg"] [] (by decide)).2 (by decide) (by decide)

/-! ## C1 — event matching and descendant resolution -/

/-- Every entry produced by `collect` at starting depth `d0` has depth at
least `d0`. -/
theorem collectDesc_depth_ge (tags : List TagRow) (locs : List LocRow) :
    ∀ (fuel id d0 : Nat) (e : DescEntry),
      e ∈ collectDesc tags locs fuel id d0 → d0 ≤ e.depth := by
  intro fuel
  induction fuel with
  | zero =>
    intro id d0 e h
    simp [collectDesc] at h
  | succ n ih =>
    intro id d0 e h
    simp only [collectDesc] at h
    rcases hft : findTag tags id with _ | base
    · rw [hft] at h
      simp at h
    · rw [hft] at h
      rcases List.mem_cons.mp h with rfl | h2
      · exact Nat.le_refl d0
      · rcases List.mem_flatMap.mp h2 with ⟨c, _, hc⟩
        have := ih c.id (d0 + 1) e hc
        omega

/-- `getLocationTagDescendants` starts with the root row at depth 0,
followed by the child subtrees at depth ≥ 1. -/
theorem getLocationTagDescendants_eq (tags : List TagRow) (locs : List LocRow)
    (locId : Nat) (rootRow : TagRow) (hr : findTag tags locId = some rootRow) :
    getLocationTagDescendants tags locs locId =
      ⟨rootRow, (findLoc locs locId).bind LocRow.lat,
        (findLoc locs locId).bind LocRow.lng,
        (findLoc locs locId).bind LocRow.radius, 0⟩ ::
      (locChildren tags locId).flatMap
        (fun c => collectDesc tags locs tags.length c.id 1) := by
  unfold getLocationTagDescendants
  simp [collectDesc, hr]

/-- The only depth-0 entry of the descendant list is the root entry. -/
theorem descendants_zero_root (tags : List TagRow) (locs : List LocRow)
    (locId : Nat) (rootRow : TagRow) (hr : findTag tags locId = some rootRow) :
    ∀ e ∈ getLocationTagDescendants tags locs locId, e.depth = 0 →
      e = ⟨rootRow, (findLoc locs locId).bind LocRow.lat,
        (findLoc locs locId).bind LocRow.lng,
        (findLoc locs locId).bind LocRow.radius, 0⟩ := by
  rw [getLocationTagDescendants_eq tags locs locId rootRow hr]
  intro e he h0
  rcases List.mem_cons.mp he with rfl | h2
  · rfl
  · rcases List.mem_flatMap.mp h2 with ⟨c, _, hc⟩
    have := collectDesc_depth_ge tags locs tags.length c.id 1 e hc
    omega

/-- The sorted descendant list is pairwise non-increasing in depth. -/
theorem sortByDepthDesc_pairwise (l : List DescEntry) :
    List.Pairwise (fun a b => decide (b.depth ≤ a.depth) = true)
      (sortByDepthDesc l) := by
  refine List.sorted_mergeSort ?_ ?_ l
  · intro a b c hab hbc
    simp only [decide_eq_true_eq] at hab hbc ⊢
    omega
  · intro a b
    simp only [Bool.or_eq_true, decide_eq_true_eq]
    omega

/-- C1: for a photo with a capture time and coordinates and a candidate
event whose complete inclusive window contains the time and whose linked
landmark row exists and contains the point, the matcher assigns the event
tag and exactly one landmark entry from the descendant enumeration: a
containing strict descendant of maximal depth among the containing strict
descendants when one exists, else the linked landmark itself (depth 0). -/
theorem c1_event_landmark_resolution :
    ∀ (dist : Dist) (tags : List TagRow) (locs : List LocRow) (photoTime : ℤ)
      (plat plng : ℚ) (evt : EventRow) (locId : Nat) (rootRow : TagRow)
      (rootLoc : LocRow),
      evt.locationTagId = some locId →
      containsTime evt.startTime evt.endTime photoTime = true →
      findTag tags locId = some rootRow →
      findLoc locs locId = some rootLoc →
      containsPoint dist rootLoc.lat rootLoc.lng (rootLoc.radius.getD 0)
        plat plng = true →
      (matchEvent dist tags locs photoTime plat plng evt).eventAssigned =
        true ∧
      ∃ sel, (matchEvent dist tags locs photoTime plat plng
          evt).landmarkAssigned = some sel ∧
        sel ∈ getLocationTagDescendants tags locs locId ∧
        ((0 < sel.depth ∧ descContains dist plat plng sel = true ∧
          ∀ d ∈ getLocationTagDescendants tags locs locId,
            0 < d.depth → descContains dist plat plng d = true →
            d.depth ≤ sel.depth) ∨
         (sel.depth = 0 ∧ sel.row = rootRow ∧
          ∀ d ∈ getLocationTagDescendants tags locs locId,
            0 < d.depth → descContains dist plat plng d = false)) := by
  intro dist tags locs photoTime plat plng evt locId rootRow rootLoc
    hlocid htime hr hl hc
  have hmatch : matchEvent dist tags locs photoTime plat plng evt =
      ⟨true,
        match (sortByDepthDesc (getLocationTagDescendants tags locs
            locId)).find?
            (fun d => decide (d.depth ≠ 0) && descContains dist plat plng d)
          with
        | some d => some d
        | none =>
          (sortByDepthDesc (getLocationTagDescendants tags locs
            locId)).find? (fun d => d.depth == 0)⟩ := by
    unfold matchEvent
    rw [htime, hlocid]
    simp only [not_true, if_false, Bool.true_eq_false]
    rw [hr, hl]
    simp [hc]
  set D := getLocationTagDescendants tags locs locId with hD
  set S := sortByDepthDesc D with hS
  have hperm : S.Perm D := List.mergeSort_perm D _
  refine ⟨by rw [hmatch], ?_⟩
  rcases hstrict : S.find?
      (fun d => decide (d.depth ≠ 0) && descContains dist plat plng d) with
    _ | sel
  · -- no containing strict descendant: fall back to the depth-0 root entry
    have hnone : ∀ d ∈ S,
        ¬(decide (d.depth ≠ 0) && descContains dist plat plng d) = true := by
      intro d hd
      exact List.find?_eq_none.mp hstrict d hd
    have hnostrict : ∀ d ∈ D, 0 < d.depth →
        descContains dist plat plng d = false := by
      intro d hd hdep
      have hdS : d ∈ S := hperm.mem_iff.mpr hd
      have hno := hnone d hdS
      rcases hcd : descContains dist plat plng d with _ | _
      · rfl
      · exact absurd (by
          simp only [hcd, Bool.and_true, decide_eq_true_eq]
          omega) hno
    have hrootD : (⟨rootRow, (findLoc locs locId).bind LocRow.lat,
        (findLoc locs locId).bind LocRow.lng,
        (findLoc locs locId).bind LocRow.radius, 0⟩ : DescEntry) ∈ D := by
      rw [hD, getLocationTagDescendants_eq tags locs locId rootRow hr]
      exact List.mem_cons_self _ _
    have hrootS : (⟨rootRow, (findLoc locs locId).bind LocRow.lat,
        (findLoc locs locId).bind LocRow.lng,
        (findLoc locs locId).bind LocRow.radius, 0⟩ : DescEntry) ∈ S :=
      hperm.mem_iff.mpr hrootD
    have hfind0 : ∃ e0, S.find? (fun d => d.depth == 0) = some e0 := by
      rcases hf : S.find? (fun d => d.depth == 0) with _ | e0
      · have := List.find?_eq_none.mp hf _ hrootS
        simp at this
      · exact ⟨e0, hf⟩
    rcases hfind0 with ⟨e0, hf0⟩
    have he0S : e0 ∈ S := List.mem_of_find?_eq_some hf0
    have he0D : e0 ∈ D := hperm.mem_iff.mp he0S
    have he0depth : e0.depth = 0 := by
      have := List.find?_some hf0
      simpa using this
    have he0root := descendants_zero_root tags locs locId rootRow hr e0
      he0D he0depth
    refine ⟨e0, ?_, he0D, Or.inr ⟨he0depth, ?_, hnostrict⟩⟩
    · rw [hmatch]
      simp only [← hS, ← hD, hstrict, hf0]
    · rw [he0root]
  · -- a containing strict descendant was found, deepest first
    have hpred := List.find?_some hstrict
    simp only [Bool.and_eq_true, decide_eq_true_eq] at hpred
    have hselS : sel ∈ S := List.mem_of_find?_eq_some hstrict
    have hselD : sel ∈ D := hperm.mem_iff.mp hselS
    rcases List.find?_eq_some.mp hstrict with ⟨_, as, bs, hsplit, hfail⟩
    have hmax : ∀ d ∈ D, 0 < d.depth →
        descContains dist plat plng d = true → d.depth ≤ sel.depth := by
      intro d hd hdep hcont
      have hdS : d ∈ S := hperm.mem_iff.mpr hd
      rw [hsplit] at hdS
      rcases List.mem_append.mp hdS with hin | hin
      · have hfa := hfail d hin
        have hfalse : d.depth = 0 ∨ descContains dist plat plng d = false := by
          simpa using hfa
        rcases hfalse with h | h
        · omega
        · rw [hcont] at h
          cases h
      · rcases List.mem_cons.mp hin with rfl | hin2
        · exact Nat.le_refl _
        · have hpw := sortByDepthDesc_pairwise D
          rw [← hS, hsplit] at hpw
          have := (List.pairwise_append.mp hpw).2.1
          have hrel := (List.pairwise_cons.mp this).1 d hin2
          simpa using hrel
    refine ⟨sel, ?_, hselD, Or.inl ⟨by omega, hpred.2, hmax⟩⟩
    rw [hmatch]
    simp only [← hS, ← hD, hstrict]

/-- A concrete stand-in for the numeric distance function (constantly one
metre), used to instantiate the matcher theorems on a concrete store: with
it the query point lies within every positive radius. -/
def unitDist : Dist := fun _ _ _ _ => 1

/-- Concrete store: a City landmark with a Museum child landmark. -/
def cityStore : List TagRow :=
  [⟨1, "City", "location", none⟩, ⟨2, "Museum", "location", some 1⟩]

/-- Concrete location rows: City radius 5000 at (0,0), Museum radius 100 at
(0,1). -/
def cityLocs : List LocRow :=
  [⟨1, some 0, some 0, some 5000⟩, ⟨2, some 0, some 1, some 100⟩]

/-- Concrete event with window [0,100] linked to the City landmark. -/
def cityEvent : EventRow := ⟨10, "E", some 0, some 100, some 1⟩

/-- The Museum descendant entry at depth 1. -/
def museumEntry : DescEntry :=
  ⟨⟨2, "Museum", "location", some 1⟩, some 0, some 1, some 100, 1⟩

/-- Witness for C1: a photo at time 50 and point (0,1) — inside the Museum
circle — is assigned the event tag and the Museum entry, not the City. -/
theorem c1_witness :
    (matchEvent unitDist cityStore cityLocs 50 0 1 cityEvent).eventAssigned =
      true ∧
    (matchEvent unitDist cityStore cityLocs 50 0 1 cityEvent).landmarkAssigned =
      some museumEntry := by
  have h := c1_event_landmark_resolution unitDist cityStore cityLocs 50 0 1
    cityEvent 1 ⟨1, "City", "location", none⟩ ⟨1, some 0, some 0, some 5000⟩
    rfl (by decide) (by decide) (by decide) (by decide)
  obtain ⟨hev, sel, hsel, hselD, hdisj⟩ := h
  have hdesc : getLocationTagDescendants cityStore cityLocs 1 =
      [⟨⟨1, "City", "location", none⟩, some 0, some 0, some 5000, 0⟩,
       museumEntry] := by decide
  have hs : sel = museumEntry := by
    rcases hdisj with ⟨hpos, _, _⟩ | ⟨_, _, hnostrict⟩
    · rw [hdesc] at hselD
      rcases List.mem_cons.mp hselD with rfl | h2
      · exact absurd hpos (by decide)
      · rcases List.mem_cons.mp h2 with rfl | h3
        · rfl
        · cases h3
    · exfalso
      have hmem : museumEntry ∈ getLocationTagDescendants cityStore cityLocs
          1 := by
        rw [hdesc]
        exact List.mem_cons_of_mem _ (List.mem_cons_self _ _)
      have := hnostrict museumEntry hmem (by decide)
      rw [show descContains unitDist 0 1 museumEntry = true from by decide]
        at this
      cases this
  rw [hsel, hs]
  exact ⟨hev, rfl⟩

/-! ## C6 — cascading tag deletion -/

/-- Subtree membership is transitive. -/
theorem Desc_trans (tags : List TagRow) :
    ∀ (x y z : Nat), Desc tags x y → Desc tags y z → Desc tags x z := by
  intro x y z hxy hyz
  induction hyz with
  | refl => exact hxy
  | step hp hc hpar ih => exact Desc.step ih hc hpar

/-- Subtree membership decomposes at the first child step. -/
theorem desc_iff_child (tags : List TagRow) (root n : Nat) :
    Desc tags root n ↔
      n = root ∨
      ∃ c ∈ tags, c.parentId = some root ∧ Desc tags c.id n := by
  constructor
  · intro h
    induction h with
    | refl => exact Or.inl rfl
    | @step p c hp hc hpar ih =>
      rcases ih with rfl | ⟨cw, hcw, hcwpar, hcwd⟩
      · exact Or.inr ⟨c, hc, hpar, Desc.refl⟩
      · exact Or.inr ⟨cw, hcw, hcwpar, Desc.step hcwd hc hpar⟩
  · rintro (rfl | ⟨c, hc, hpar, hd⟩)
    · exact Desc.refl
    · exact Desc_trans tags root c.id n (Desc.step Desc.refl hc hpar) hd

/-- Membership in `childrenAll` unpacked. -/
theorem mem_childrenAll (tags : List TagRow) (id : Nat) (c : TagRow) :
    c ∈ childrenAll tags id ↔ c ∈ tags ∧ c.parentId = some id := by
  unfold childrenAll
  rw [List.mem_filter]
  simp

/-- The collected node itself is always in its collected list. -/
theorem collectIds_self_mem (tags : List TagRow) (fuel id : Nat)
    (h : 1 ≤ fuel) : id ∈ collectIds tags fuel id := by
  match fuel, h with
  | f + 1, _ =>
    simp only [collectIds]
    exact List.mem_append_right _ (List.mem_singleton_self id)

/-- With an acyclicity rank bounded by `B` and enough fuel, the collected id
list is exactly the subtree-membership relation. -/
theorem collectIds_mem_iff (tags : List TagRow) (rank : Nat → Nat) (B : Nat)
    (hrank : Ranked tags rank) (hbound : ∀ t ∈ tags, rank t.id < B) :
    ∀ (fuel id : Nat), 1 ≤ fuel → B + 1 ≤ fuel + rank id →
      ∀ n, n ∈ collectIds tags fuel id ↔ Desc tags id n := by
  intro fuel
  induction fuel with
  | zero =>
    intro id h1
    omega
  | succ f ih =>
    intro id _ hB n
    have hfuel : ∀ c ∈ tags, c.parentId = some id →
        1 ≤ f ∧ B + 1 ≤ f + rank c.id := by
      intro c hc hpar
      have h1 := hrank c hc id hpar
      have h2 := hbound c hc
      omega
    simp only [collectIds, List.mem_append, List.mem_flatMap,
      List.mem_singleton]
    constructor
    · rintro (⟨c, hc, hcmem⟩ | rfl)
      · rcases (mem_childrenAll tags id c).mp hc with ⟨hcT, hcpar⟩
        rcases hfuel c hcT hcpar with ⟨h1f, hBf⟩
        have hd := (ih c.id h1f hBf n).mp hcmem
        exact Desc_trans tags id c.id n (Desc.step Desc.refl hcT hcpar) hd
      · exact Desc.refl
    · intro hd
      rcases (desc_iff_child tags id n).mp hd with rfl | ⟨c, hcT, hcpar, hdc⟩
      · exact Or.inr rfl
      · rcases hfuel c hcT hcpar with ⟨h1f, hBf⟩
        exact Or.inl ⟨c, (mem_childrenAll tags id c).mpr ⟨hcT, hcpar⟩,
          (ih c.id h1f hBf n).mpr hdc⟩

/-- Splitting a snoc list at an occurrence. -/
theorem append_singleton_split {α : Type} (xs : List α) (a : α) (l1 : List α)
    (b : α) (l2 : List α) (h : xs ++ [a] = l1 ++ b :: l2) :
    (l2 = [] ∧ b = a ∧ l1 = xs) ∨
    ∃ l2x, l2 = l2x ++ [a] ∧ xs = l1 ++ b :: l2x := by
  rcases List.append_eq_append_iff.mp h with ⟨aq, h1, h2⟩ | ⟨cq, h1, h2⟩
  · match aq, h2 with
    | [], h2 =>
      rw [List.nil_append] at h2
      rw [List.cons.injEq] at h2
      rcases h2 with ⟨rfl, rfl⟩
      exact Or.inl ⟨rfl, rfl, by rw [h1, List.append_nil]⟩
    | aq1 :: aqt, h2 =>
      rw [List.cons_append, List.cons.injEq] at h2
      rcases h2 with ⟨rfl, h3⟩
      exact absurd h3.symm (by simp)
  · match cq, h1, h2 with
    | [], h1, h2 =>
      rw [List.nil_append] at h2
      rw [List.cons.injEq] at h2
      rcases h2 with ⟨rfl, rfl⟩
      exact Or.inl ⟨rfl, rfl, by rw [h1, List.append_nil]⟩
    | cq1 :: cqt, h1, h2 =>
      rw [List.cons_append, List.cons.injEq] at h2
      rcases h2 with ⟨rfl, h3⟩
      exact Or.inr ⟨cqt, h3, by rw [h1]⟩

/-- Splitting a flatMap at an occurrence: the occurrence lies inside the
image of one list element. -/
theorem flatMap_split {α β : Type} (f : α → List β) :
    ∀ (xs : List α) (l1 : List β) (b : β) (l2 : List β),
      xs.flatMap f = l1 ++ b :: l2 →
      ∃ pre x post m1 m2, xs = pre ++ x :: post ∧ f x = m1 ++ b :: m2 ∧
        l1 = pre.flatMap f ++ m1 := by
  intro xs
  induction xs with
  | nil =>
    intro l1 b l2 h
    rw [List.flatMap_nil] at h
    exact absurd h.symm (by simp)
  | cons x tl ih =>
    intro l1 b l2 h
    rw [List.flatMap_cons] at h
    rcases List.append_eq_append_iff.mp h with ⟨aq, h1, h2⟩ | ⟨cq, h1, h2⟩
    · rcases ih aq b l2 h2 with ⟨pre, y, post, m1, m2, h3, h4, h5⟩
      refine ⟨x :: pre, y, post, m1, m2, by simp [h3], h4, ?_⟩
      rw [h1, h5, List.flatMap_cons, List.append_assoc]
    · match cq, h1, h2 with
      | [], h1, h2 =>
        rw [List.nil_append] at h2
        rcases ih [] b l2 (by rw [← h2]; rfl) with
          ⟨pre, y, post, m1, m2, h3, h4, h5⟩
        have h6 := List.append_eq_nil.mp h5.symm
        have h1x : f x = l1 := by rw [h1, List.append_nil]
        refine ⟨x :: pre, y, post, m1, m2, by simp [h3], h4, ?_⟩
        rw [List.flatMap_cons, h6.1, h6.2, h1x]
        simp
      | cq1 :: cqt, h1, h2 =>
        rw [List.cons_append, List.cons.injEq] at h2
        rcases h2 with ⟨rfl, h3⟩
        exact ⟨[], x, tl, l1, cqt, rfl, by rw [h1], by simp⟩

/-- Post-order: whenever the collected deletion list reaches a node, the id
of every child row of that node already occurs strictly earlier. -/
theorem collectIds_postorder (tags : List TagRow) (rank : Nat → Nat) (B : Nat)
    (hrank : Ranked tags rank) (hbound : ∀ t ∈ tags, rank t.id < B) :
    ∀ (fuel id : Nat), 1 ≤ fuel → B + 1 ≤ fuel + rank id →
      ∀ (l1 : List Nat) (tid : Nat) (l2 : List Nat),
        collectIds tags fuel id = l1 ++ tid :: l2 →
        ∀ c ∈ tags, c.parentId = some tid → c.id ∈ l1 := by
  intro fuel
  induction fuel with
  | zero =>
    intro id h1
    omega
  | succ f ih =>
    intro id _ hB l1 tid l2 hsplit c hc hcpar
    have hfuel : ∀ d ∈ tags, d.parentId = some id →
        1 ≤ f ∧ B + 1 ≤ f + rank d.id := by
      intro d hd hpar
      have h1 := hrank d hd id hpar
      have h2 := hbound d hd
      omega
    simp only [collectIds] at hsplit
    rcases append_singleton_split _ id l1 tid l2 hsplit with
      ⟨_, rfl, rfl⟩ | ⟨l2x, _, hx⟩
    · -- the split is at the node itself: its children were collected before
      have hcchild : c ∈ childrenAll tags tid :=
        (mem_childrenAll tags tid c).mpr ⟨hc, hcpar⟩
      rcases hfuel c hc hcpar with ⟨h1f, _⟩
      exact List.mem_flatMap.mpr
        ⟨c, hcchild, collectIds_self_mem tags f c.id h1f⟩
    · -- the split is inside one child subtree
      rcases flatMap_split _ _ l1 tid l2x hx with
        ⟨pre, x, post, m1, m2, hch, hcx, hl1⟩
      have hxchild : x ∈ childrenAll tags id := by
        rw [hch]
        exact List.mem_append_right pre (List.mem_cons_self x post)
      rcases (mem_childrenAll tags id x).mp hxchild with ⟨hxT, hxpar⟩
      rcases hfuel x hxT hxpar with ⟨h1f, hBf⟩
      have := ih x.id h1f hBf m1 tid m2 hcx c hc hcpar
      rw [hl1]
      exact List.mem_append_right _ this

/-- Sequentially deleting a list of ids filters the tag table by those ids. -/
theorem deleteSeq_tags_eq :
    ∀ (ids : List Nat) (st : TagStore),
      (ids.foldl deleteOne st).tags =
        st.tags.filter (fun t => !(ids.contains t.id)) := by
  intro ids
  induction ids with
  | nil =>
    intro st
    simp
  | cons i ids ih =>
    intro st
    rw [List.foldl_cons, ih]
    show (deleteOne st i).tags.filter _ = _
    unfold deleteOne
    rw [List.filter_filter]
    refine List.filter_congr ?_
    intro t _
    simp only [List.contains_cons]
    rcases h1 : (t.id == i) with _ | _ <;>
      rcases h2 : ids.contains t.id with _ | _ <;>
        simp_all

/-- Sequentially deleting a list of ids filters the assignments table by
those ids. -/
theorem deleteSeq_photoTags_eq :
    ∀ (ids : List Nat) (st : TagStore),
      (ids.foldl deleteOne st).photoTags =
        st.photoTags.filter (fun pt => !(ids.contains pt.tagId)) := by
  intro ids
  induction ids with
  | nil =>
    intro st
    simp
  | cons i ids ih =>
    intro st
    rw [List.foldl_cons, ih]
    show (deleteOne st i).photoTags.filter _ = _
    unfold deleteOne
    rw [List.filter_filter]
    refine List.filter_congr ?_
    intro pt _
    simp only [List.contains_cons]
    rcases h1 : (pt.tagId == i) with _ | _ <;>
      rcases h2 : ids.contains pt.tagId with _ | _ <;>
        simp_all

/-- C6: `deleteTag` removes exactly the tag rows of the deleted node's
subtree (N descendants plus the node itself, N+1 rows), removes exactly the
assignments of those tags, and deletes every child before its parent
(post-order), all in one transaction of the model. -/
theorem c6_delete_cascade :
    ∀ (st : TagStore) (root : Nat) (rank : Nat → Nat),
      Ranked st.tags rank →
      (∀ t ∈ st.tags, rank t.id < st.tags.length) →
      (st.tags.map TagRow.id).Nodup →
      (∃ t ∈ st.tags, t.id = root) →
      (∀ t : TagRow, t ∈ (deleteTag st root).tags ↔
        t ∈ st.tags ∧ ¬ Desc st.tags root t.id) ∧
      (∀ pt : PhotoTagRow, pt ∈ (deleteTag st root).photoTags ↔
        pt ∈ st.photoTags ∧ ¬ Desc st.tags root pt.tagId) ∧
      ((deleteTag st root).tags.length +
        ((st.tags.filter (fun t => decide (t.id ≠ root) &&
          (collectIds st.tags (st.tags.length + 1) root).contains
            t.id)).length + 1) = st.tags.length) ∧
      (∀ (l1 : List Nat) (tid : Nat) (l2 : List Nat),
        collectIds st.tags (st.tags.length + 1) root = l1 ++ tid :: l2 →
        ∀ c ∈ st.tags, c.parentId = some tid → c.id ∈ l1) := by
  intro st root rank hrank hbound hnodup hroot
  have hmem := collectIds_mem_iff st.tags rank st.tags.length hrank hbound
    (st.tags.length + 1) root (by omega) (by omega)
  have hco : ∀ n, (collectIds st.tags (st.tags.length + 1) root).contains n =
      true ↔ Desc st.tags root n := by
    intro n
    rw [List.elem_iff]
    exact hmem n
  have htags : (deleteTag st root).tags =
      st.tags.filter (fun t =>
        !((collectIds st.tags (st.tags.length + 1) root).contains t.id)) :=
    deleteSeq_tags_eq _ st
  have hpts : (deleteTag st root).photoTags =
      st.photoTags.filter (fun pt =>
        !((collectIds st.tags (st.tags.length + 1) root).contains
          pt.tagId)) :=
    deleteSeq_photoTags_eq _ st
  refine ⟨?_, ?_, ?_, ?_⟩
  · intro t
    rw [htags, List.mem_filter]
    constructor
    · rintro ⟨h1, h2⟩
      refine ⟨h1, fun hd => ?_⟩
      rw [Bool.not_eq_eq_eq_not, Bool.not_true] at h2
      rw [← hco t.id] at hd
      rw [h2] at hd
      cases hd
    · rintro ⟨h1, h2⟩
      refine ⟨h1, ?_⟩
      rcases hcon : (collectIds st.tags (st.tags.length + 1) root).contains
          t.id with _ | _
      · rfl
      · exact absurd ((hco t.id).mp hcon) h2
  · intro pt
    rw [hpts, List.mem_filter]
    constructor
    · rintro ⟨h1, h2⟩
      refine ⟨h1, fun hd => ?_⟩
      rw [Bool.not_eq_eq_eq_not, Bool.not_true] at h2
      rw [← hco pt.tagId] at hd
      rw [h2] at hd
      cases hd
    · rintro ⟨h1, h2⟩
      refine ⟨h1, ?_⟩
      rcases hcon : (collectIds st.tags (st.tags.length + 1) root).contains
          pt.tagId with _ | _
      · rfl
      · exact absurd ((hco pt.tagId).mp hcon) h2
  · -- counting: removed rows = strict descendants + the root row
    set ids := collectIds st.tags (st.tags.length + 1) root with hids
    have hsplit1 : st.tags.length =
        (st.tags.filter (fun t => ids.contains t.id)).length +
        (st.tags.filter (fun t => !(ids.contains t.id))).length :=
      List.length_eq_length_filter_add _
    have hsplit2 : (st.tags.filter (fun t => ids.contains t.id)).length =
        (st.tags.filter (fun t => (t.id == root) && ids.contains t.id)).length
        + (st.tags.filter (fun t => (!(t.id == root)) &&
            ids.contains t.id)).length := by
      have := List.length_eq_length_filter_add
        (l := st.tags.filter (fun t => ids.contains t.id))
        (fun t => t.id == root)
      rw [List.filter_filter, List.filter_filter] at this
      exact this
    have hrootids : ids.contains root = true := by
      rw [hco]
      exact Desc.refl
    have hrootfilter :
        (st.tags.filter (fun t => (t.id == root) && ids.contains t.id)) =
        st.tags.filter (fun t => t.id == root) := by
      refine List.filter_congr ?_
      intro t _
      rcases ht : (t.id == root) with _ | _
      · simp
      · have : t.id = root := by simpa using ht
        rw [this, hrootids]
        simp
    have hrootcount : (st.tags.filter (fun t => t.id == root)).length = 1 := by
      have h1 : (st.tags.filter (fun t => t.id == root)).length =
          List.countP (fun t => t.id == root) st.tags :=
        (List.countP_eq_length_filter _ _).symm
      have h2 : List.countP (fun t => t.id == root) st.tags =
          List.countP (fun n => n == root) (st.tags.map TagRow.id) := by
        rw [List.countP_map]
        rfl
      have h3 : List.countP (fun n => n == root) (st.tags.map TagRow.id) =
          List.count root (st.tags.map TagRow.id) := rfl
      have h4 : root ∈ st.tags.map TagRow.id := by
        rcases hroot with ⟨t, ht, rfl⟩
        exact List.mem_map_of_mem TagRow.id ht
      rw [h1, h2, h3]
      exact List.count_eq_one_of_mem hnodup h4
    have hstrictpred :
        (st.tags.filter (fun t => (!(t.id == root)) && ids.contains t.id)) =
        (st.tags.filter (fun t => decide (t.id ≠ root) &&
          ids.contains t.id)) := by
      refine List.filter_congr ?_
      intro t _
      congr 1
      rcases ht : (t.id == root) with _ | _
      · have : ¬ t.id = root := by simpa using ht
        simp [this]
      · have : t.id = root := by simpa using ht
        simp [this]
    rw [htags]
    have hA : (st.tags.filter
        (fun t => (t.id == root) && ids.contains t.id)).length = 1 := by
      rw [hrootfilter]
      exact hrootcount
    have hB := congrArg List.length hstrictpred
    omega
  · intro l1 tid l2 hs c hc hcpar
    exact collectIds_postorder st.tags rank st.tags.length hrank hbound
      (st.tags.length + 1) root (by omega) (by omega) l1 tid l2 hs c hc hcpar

/-- A node with no parent pointing at it and distinct from the root is
outside the root's subtree. -/
theorem not_desc_of_no_parent (tags : List TagRow) (root n : Nat)
    (hne : n ≠ root)
    (h : ∀ c ∈ tags, c.id = n → c.parentId = none) :
    ¬ Desc tags root n := by
  intro h2
  cases h2 with
  | refl => exact hne rfl
  | step hp hc hpar =>
    have := h _ hc rfl
    rw [this] at hpar
    cases hpar

/-- Concrete store for the cascade-delete witness: a chain 1 ← 2 ← 3, an
unrelated root 4, and one assignment on tag 2 and one on tag 4. -/
def delStore : TagStore :=
  ⟨[⟨1, "r", "common", none⟩, ⟨2, "a", "common", some 1⟩,
    ⟨3, "b", "common", some 2⟩, ⟨4, "x", "common", none⟩],
   [⟨100, 2⟩, ⟨100, 4⟩]⟩

/-- Witness for C6: deleting tag 1 removes its descendant row 2 and the
assignment on 2, while the unrelated row 4 and its assignment survive. -/
theorem c6_witness :
    (⟨2, "a", "common", some 1⟩ : TagRow) ∉ (deleteTag delStore 1).tags ∧
    (⟨4, "x", "common", none⟩ : TagRow) ∈ (deleteTag delStore 1).tags ∧
    (⟨100, 2⟩ : PhotoTagRow) ∉ (deleteTag delStore 1).photoTags ∧
    (⟨100, 4⟩ : PhotoTagRow) ∈ (deleteTag delStore 1).photoTags := by
  have h := c6_delete_cascade delStore 1 (fun n => n - 1)
    (by
      intro t ht p hp
      simp only [delStore] at ht
      fin_cases ht <;> simp_all <;> omega)
    (by
      intro t ht
      simp only [delStore] at ht
      fin_cases ht <;> decide)
    (by decide)
    ⟨⟨1, "r", "common", none⟩, by decide, rfl⟩
  have hdesc2 : Desc delStore.tags 1 2 :=
    Desc.step (c := ⟨2, "a", "common", some 1⟩) Desc.refl (by decide) rfl
  have hnd4 : ¬ Desc delStore.tags 1 4 := by
    refine not_desc_of_no_parent delStore.tags 1 4 (by decide) ?_
    intro c hc hid
    have hc2 : c ∈ delStore.tags := hc
    simp only [delStore] at hc2
    fin_cases hc2 <;> simp_all
  refine ⟨?_, ?_, ?_, ?_⟩
  · intro hmem
    exact ((h.1 _).mp hmem).2 hdesc2
  · exact (h.1 _).mpr ⟨by decide, hnd4⟩
  · intro hmem
    exact ((h.2.1 _).mp hmem).2 hdesc2
  · exact (h.2.1 _).mpr ⟨by decide, hnd4⟩

/-! ## C3 — idempotent re-scan -/

/-- The fresh-state root walk goes straight into the entry loop. -/
theorem getAllFilesRecursively_fresh (skip : Bool) (entries : List FsEntry)
    (db : Db) :
    getAllFilesRecursively skip entries (WalkState.mk [] [] db []) =
      walkEntries skip "" (visitDir (WalkState.mk [] [] db []) "") entries := by
  unfold getAllFilesRecursively
  have hc : (WalkState.mk [] [] db []).visited.contains "" = false := by simp
  rw [hc]
  simp

/-- Presence of a `(directory, filename)` pair in a photo-row list. -/
def photosHas (rows : List PhotoRow) (d f : String) : Bool :=
  rows.any (fun r => r.directory == d && r.filename == f)

theorem isFileExists_eq_photosHas (db : Db) (d f : String) :
    isFileExists db d f = photosHas db.photos d f := rfl

/-- One upsert preserves pair presence and establishes its own pair. -/
theorem photosHas_upsertRow (rows : List PhotoRow) (p : PhotoMeta)
    (d f : String)
    (h : photosHas rows d f = true ∨ (p.directory = d ∧ p.filename = f)) :
    photosHas (upsertRow rows p) d f = true := by
  unfold photosHas upsertRow
  rw [List.any_append]
  by_cases hp : p.directory = d ∧ p.filename = f
  · refine Bool.or_eq_true_iff.mpr (Or.inr ?_)
    simp [mkPhotoRow, hp.1, hp.2]
  · rcases h with h | h
    · refine Bool.or_eq_true_iff.mpr (Or.inl ?_)
      unfold photosHas at h
      rcases List.any_eq_true.mp h with ⟨r, hr, hrp⟩
      have hrp2 : r.directory = d ∧ r.filename = f := by
        simpa using hrp
      have hkeep : (r.directory == p.directory &&
          r.filename == p.filename) = false := by
        by_contra hcon
        rw [Bool.not_eq_false] at hcon
        simp only [Bool.and_eq_true, beq_iff_eq] at hcon
        exact hp ⟨by rw [← hcon.1, hrp2.1], by rw [← hcon.2, hrp2.2]⟩
      refine List.any_eq_true.mpr ⟨r, List.mem_filter.mpr ⟨hr, ?_⟩, hrp⟩
      rw [hkeep]
      rfl
    · exact absurd h hp

/-- Batch upsert preserves pair presence and establishes the pairs of its
items. -/
theorem photosHas_batchInsert (items : List PhotoMeta) :
    ∀ (rows : List PhotoRow) (d f : String),
      (photosHas rows d f = true ∨
        ∃ p ∈ items, p.directory = d ∧ p.filename = f) →
      photosHas (items.foldl upsertRow rows) d f = true := by
  induction items with
  | nil =>
    intro rows d f h
    rcases h with h | ⟨p, hp, _⟩
    · exact h
    · cases hp
  | cons p items ih =>
    intro rows d f h
    rw [List.foldl_cons]
    refine ih (upsertRow rows p) d f ?_
    rcases h with h | ⟨q, hq, hqp⟩
    · exact Or.inl (photosHas_upsertRow rows p d f (Or.inl h))
    · rcases List.mem_cons.mp hq with rfl | hq2
      · exact Or.inl (photosHas_upsertRow rows q d f (Or.inr hqp))
      · exact Or.inr ⟨q, hq2, hqp⟩

theorem batchInsert_dirs (db : Db) (items : List PhotoMeta) :
    (batchInsertPhotos db items).dirs = db.dirs := rfl

theorem updateScanTime_photos (db : Db) (p : String) (now : ℤ) :
    (updateScanTime db p now).photos = db.photos := rfl

theorem addDirectory_photos_eq (db : Db) (p : String) :
    (addDirectory db p).photos = db.photos :=
  addDirectory_photos db p

theorem any_path_map_upd (l : List DirRow) (p q : String) (now : ℤ) :
    (l.map (fun r => if r.path == p then { r with lastScanTime := some now }
      else r)).any (fun r => r.path == q) = l.any (fun r => r.path == q) := by
  induction l with
  | nil => rfl
  | cons r l ih =>
    simp only [List.map_cons, List.any_cons, ih]
    by_cases h : (r.path == p) = true
    · rw [if_pos h]
    · rw [if_neg h]

theorem hasDirectory_updateScanTime (db : Db) (p q : String) (now : ℤ) :
    hasDirectory (updateScanTime db p now) q = hasDirectory db q :=
  any_path_map_upd db.dirs p q now

theorem hasDirectory_addDirectory_mono (db : Db) (p q : String)
    (h : hasDirectory db q = true) :
    hasDirectory (addDirectory db p) q = true := by
  unfold addDirectory
  split
  · exact h
  · unfold hasDirectory at h ⊢
    rw [List.any_append, h]
    rfl

/-- Location inference never changes an asset's identity fields. -/
theorem inferForPhoto_id_fields (gps : List PhotoMeta) (p : PhotoMeta) :
    (inferForPhoto gps p).directory = p.directory ∧
    (inferForPhoto gps p).filename = p.filename := by
  unfold inferForPhoto
  split
  · exact ⟨rfl, rfl⟩
  · split
    · split
      · exact ⟨rfl, rfl⟩
      · exact ⟨rfl, rfl⟩
    · exact ⟨rfl, rfl⟩

/-- The per-file loop only appends to the metadata lists. -/
theorem processMediaItem_mono (db : Db) (ms : MetaSource) (acc : ScanAccum)
    (f : FileItem) :
    ∃ ps vs, (processMediaItem db ms acc f).photoMetaList =
        acc.photoMetaList ++ ps ∧
      (processMediaItem db ms acc f).videoMetaList =
        acc.videoMetaList ++ vs := by
  unfold processMediaItem
  split
  · split
    · exact ⟨[], [], by simp, by simp⟩
    · exact ⟨_, [], rfl, by simp⟩
  · split
    · split
      · exact ⟨[], [], by simp, by simp⟩
      · exact ⟨[], _, by simp, rfl⟩
    · exact ⟨[], [], by simp, by simp⟩

theorem foldl_processMediaItem_mono (db : Db) (ms : MetaSource) :
    ∀ (items : List FileItem) (acc : ScanAccum),
      ∃ ps vs, (items.foldl (processMediaItem db ms) acc).photoMetaList =
          acc.photoMetaList ++ ps ∧
        (items.foldl (processMediaItem db ms) acc).videoMetaList =
          acc.videoMetaList ++ vs := by
  intro items
  induction items with
  | nil =>
    intro acc
    exact ⟨[], [], by simp, by simp⟩
  | cons f items ih =>
    intro acc
    rw [List.foldl_cons]
    rcases processMediaItem_mono db ms acc f with ⟨ps1, vs1, h1, h2⟩
    rcases ih (processMediaItem db ms acc f) with ⟨ps2, vs2, h3, h4⟩
    exact ⟨ps1 ++ ps2, vs1 ++ vs2, by rw [h3, h1, List.append_assoc],
      by rw [h4, h2, List.append_assoc]⟩

/-- Every media file seen by the loop ends up either already present in the
catalog or in one of the metadata lists. -/
theorem loop_presence (db : Db) (ms : MetaSource) :
    ∀ (items : List FileItem) (acc : ScanAccum) (f : FileItem),
      f ∈ items → isMediaFile f.filename = true →
      isFileExists db f.directory f.filename = true ∨
      ∃ p ∈ (items.foldl (processMediaItem db ms) acc).photoMetaList ++
          (items.foldl (processMediaItem db ms) acc).videoMetaList,
        p.directory = f.directory ∧ p.filename = f.filename := by
  intro items
  induction items with
  | nil =>
    intro acc f hf
    cases hf
  | cons g items ih =>
    intro acc f hf hm
    rw [List.foldl_cons]
    rcases List.mem_cons.mp hf with rfl | hf2
    · by_cases hex : isFileExists db f.directory f.filename = true
      · exact Or.inl hex
      · right
        have hex2 : isFileExists db f.directory f.filename = false := by
          simpa using hex
        rcases foldl_processMediaItem_mono db ms items
            (processMediaItem db ms acc f) with ⟨ps, vs, h1, h2⟩
        unfold isMediaFile at hm
        rcases Bool.or_eq_true_iff.mp hm with hph | hvd
        · have hpush : (processMediaItem db ms acc f).photoMetaList =
              acc.photoMetaList ++
              [⟨f.directory, f.filename,
                ((ms.exif f.directory f.filename).time <|>
                  ms.mtime f.directory f.filename),
                (ms.exif f.directory f.filename).lat,
                (ms.exif f.directory f.filename).lng, "photo", none⟩] := by
            simp [processMediaItem, hph, hex2]
          refine ⟨⟨f.directory, f.filename,
              ((ms.exif f.directory f.filename).time <|>
                ms.mtime f.directory f.filename),
              (ms.exif f.directory f.filename).lat,
              (ms.exif f.directory f.filename).lng, "photo", none⟩,
            List.mem_append_left _ ?_, rfl, rfl⟩
          rw [h1, hpush]
          simp
        · by_cases hph2 : isPhotoExtension f.filename = true
          · have hpush : (processMediaItem db ms acc f).photoMetaList =
                acc.photoMetaList ++
                [⟨f.directory, f.filename,
                  ((ms.exif f.directory f.filename).time <|>
                    ms.mtime f.directory f.filename),
                  (ms.exif f.directory f.filename).lat,
                  (ms.exif f.directory f.filename).lng, "photo", none⟩] := by
              simp [processMediaItem, hph2, hex2]
            refine ⟨⟨f.directory, f.filename,
                ((ms.exif f.directory f.filename).time <|>
                  ms.mtime f.directory f.filename),
                (ms.exif f.directory f.filename).lat,
                (ms.exif f.directory f.filename).lng, "photo", none⟩,
              List.mem_append_left _ ?_, rfl, rfl⟩
            rw [h1, hpush]
            simp
          · have hph3 : isPhotoExtension f.filename = false := by
              simpa using hph2
            have hpush : (processMediaItem db ms acc f).videoMetaList =
                acc.videoMetaList ++
                [⟨f.directory, f.filename,
                  ms.mtime f.directory f.filename, none, none, "video",
                  none⟩] := by
              simp [processMediaItem, hph3, hvd, hex2]
            refine ⟨⟨f.directory, f.filename,
                ms.mtime f.directory f.filename, none, none, "video",
                none⟩,
              List.mem_append_right _ ?_, rfl, rfl⟩
            rw [h2, hpush]
            simp
    · exact ih (processMediaItem db ms acc g) f hf2 hm

/-- When every file of the loop is already present in the catalog, the loop
pushes nothing. -/
theorem loop_all_present (db : Db) (ms : MetaSource) :
    ∀ (items : List FileItem) (acc : ScanAccum),
      (∀ f ∈ items, isFileExists db f.directory f.filename = true) →
      (items.foldl (processMediaItem db ms) acc).photoMetaList =
        acc.photoMetaList ∧
      (items.foldl (processMediaItem db ms) acc).videoMetaList =
        acc.videoMetaList := by
  intro items
  induction items with
  | nil =>
    intro acc _
    exact ⟨rfl, rfl⟩
  | cons f items ih =>
    intro acc hall
    rw [List.foldl_cons]
    have hstep : (processMediaItem db ms acc f).photoMetaList =
        acc.photoMetaList ∧
        (processMediaItem db ms acc f).videoMetaList = acc.videoMetaList := by
      have hex := hall f (List.mem_cons_self f items)
      unfold processMediaItem
      rw [hex]
      constructor
      · split
        · simp
        · split
          · simp
          · rfl
      · split
        · simp
        · split
          · simp
          · rfl
    rcases ih (processMediaItem db ms acc f)
        (fun g hg => hall g (List.mem_cons_of_mem f hg)) with ⟨h1, h2⟩
    rw [h1, h2, hstep.1, hstep.2]
    exact ⟨rfl, rfl⟩

/-- Membership in a directory's own media files. -/
theorem rootMedia_mem (rel : String) (l : List FsEntry) (x : FileItem)
    (hx : x ∈ rootMedia rel l) :
    ∃ n, x = ⟨rel, n⟩ ∧ isMediaFile n = true ∧ FsEntry.file n ∈ l := by
  unfold rootMedia at hx
  rcases List.mem_filterMap.mp hx with ⟨e, he, hfe⟩
  match e, hfe with
  | FsEntry.file n, hfe =>
    by_cases hm : isMediaFile n = true
    · simp only [hm, if_true] at hfe
      cases hfe
      exact ⟨n, rfl, hm, he⟩
    · have hm2 : isMediaFile n = false := by simpa using hm
      simp [hm2] at hfe
  | FsEntry.dir n sub, hfe => exact absurd hfe (by simp)
  | FsEntry.symlink n, hfe => exact absurd hfe (by simp)

/-- The walk state produced inside `scanAndProcessDirectory`: root registered,
then the recursive walk from a fresh visited set. -/
def scanWalk (skip : Bool) (entries : List FsEntry) (db0 : Db) : WalkState :=
  getAllFilesRecursively skip entries ⟨[], [], addDirectory db0 "", []⟩

/-- The accumulator of the per-file loop of `scanAndProcessDirectory`. -/
def scanAccOf (w : WalkState) (ms : MetaSource) : ScanAccum :=
  w.files.foldl (processMediaItem w.db ms) ⟨0, 0, 0, [], []⟩

/-- The `photoList` of `scanAndProcessDirectory`: location inference runs only
when some photo is geotagged. -/
def photoListOf (acc : ScanAccum) : List PhotoMeta :=
  if (acc.photoMetaList.filter isGeoTagged).isEmpty then acc.photoMetaList
  else acc.photoMetaList.map
    (inferForPhoto (acc.photoMetaList.filter isGeoTagged))

/-- The `videoList` of `scanAndProcessDirectory`. -/
def videoListOf (acc : ScanAccum) : List PhotoMeta :=
  if (acc.photoMetaList.filter isGeoTagged).isEmpty then acc.videoMetaList
  else acc.videoMetaList.map
    (inferForPhoto (acc.photoMetaList.filter isGeoTagged))

/-- The early-return path: no media file found. -/
theorem scan_eq_empty (entries : List FsEntry) (db0 : Db) (ms : MetaSource)
    (skip : Bool) (t : ℤ)
    (h : (scanWalk skip entries db0).files.isEmpty = true) :
    scanAndProcessDirectory entries db0 ms skip t =
      (⟨0, 0, 0, 0, 0, false⟩,
        updateScanTime (scanWalk skip entries db0).db "" t) := by
  unfold scanWalk at h ⊢
  unfold scanAndProcessDirectory
  simp only [h, reduceIte]

/-- The main path: the per-file loop, location inference and batch upsert. -/
theorem scan_eq_main (entries : List FsEntry) (db0 : Db) (ms : MetaSource)
    (skip : Bool) (t : ℤ)
    (h : (scanWalk skip entries db0).files.isEmpty = false) :
    scanAndProcessDirectory entries db0 ms skip t =
      (⟨(scanAccOf (scanWalk skip entries db0) ms).totalPhotos,
        (scanAccOf (scanWalk skip entries db0) ms).totalVideos,
        (photoListOf (scanAccOf (scanWalk skip entries db0) ms)).length,
        (videoListOf (scanAccOf (scanWalk skip entries db0) ms)).length,
        (scanAccOf (scanWalk skip entries db0) ms).skippedFiles, false⟩,
       updateScanTime
         (if (photoListOf (scanAccOf (scanWalk skip entries db0) ms) ++
              videoListOf (scanAccOf (scanWalk skip entries db0) ms)).isEmpty
          then (scanWalk skip entries db0).db
          else batchInsertPhotos (scanWalk skip entries db0).db
            (photoListOf (scanAccOf (scanWalk skip entries db0) ms) ++
             videoListOf (scanAccOf (scanWalk skip entries db0) ms)))
         "" t) := by
  unfold scanWalk at h ⊢
  unfold scanAndProcessDirectory scanAccOf photoListOf videoListOf
  simp only [h, reduceIte]
  exact rfl

theorem photoListOf_covers (acc : ScanAccum) (p : PhotoMeta)
    (hp : p ∈ acc.photoMetaList) :
    ∃ q ∈ photoListOf acc,
      q.directory = p.directory ∧ q.filename = p.filename := by
  unfold photoListOf
  split
  · exact ⟨p, hp, rfl, rfl⟩
  · exact ⟨inferForPhoto (acc.photoMetaList.filter isGeoTagged) p,
      List.mem_map_of_mem _ hp,
      (inferForPhoto_id_fields _ p).1, (inferForPhoto_id_fields _ p).2⟩

theorem videoListOf_covers (acc : ScanAccum) (p : PhotoMeta)
    (hp : p ∈ acc.videoMetaList) :
    ∃ q ∈ videoListOf acc,
      q.directory = p.directory ∧ q.filename = p.filename := by
  unfold videoListOf
  split
  · exact ⟨p, hp, rfl, rfl⟩
  · exact ⟨inferForPhoto (acc.photoMetaList.filter isGeoTagged) p,
      List.mem_map_of_mem _ hp,
      (inferForPhoto_id_fields _ p).1, (inferForPhoto_id_fields _ p).2⟩

/-- One scan's final catalog is a batch upsert plus a scan-time stamp over the
walk's catalog, and every walked media file is either already present there
or covered by an upserted row with the same identity. -/
theorem scan_presence (entries : List FsEntry) (db0 : Db) (ms : MetaSource)
    (skip : Bool) (t : ℤ) :
    ∃ items : List PhotoMeta,
      (scanAndProcessDirectory entries db0 ms skip t).2 =
        updateScanTime
          (batchInsertPhotos (scanWalk skip entries db0).db items) "" t ∧
      ∀ f : FileItem, f ∈ (scanWalk skip entries db0).files →
        isMediaFile f.filename = true →
        photosHas (scanWalk skip entries db0).db.photos
            f.directory f.filename = true ∨
        ∃ p ∈ items, p.directory = f.directory ∧ p.filename = f.filename := by
  by_cases hemp : (scanWalk skip entries db0).files.isEmpty = true
  · refine ⟨[], ?_, ?_⟩
    · rw [scan_eq_empty entries db0 ms skip t hemp]
      exact rfl
    · intro f hf _
      rw [List.isEmpty_iff.mp hemp] at hf
      cases hf
  · have hemp2 : (scanWalk skip entries db0).files.isEmpty = false := by
      simpa using hemp
    refine ⟨photoListOf (scanAccOf (scanWalk skip entries db0) ms) ++
        videoListOf (scanAccOf (scanWalk skip entries db0) ms), ?_, ?_⟩
    · rw [scan_eq_main entries db0 ms skip t hemp2]
      have hdb : (if (photoListOf (scanAccOf (scanWalk skip entries db0) ms) ++
            videoListOf (scanAccOf (scanWalk skip entries db0) ms)).isEmpty
          then (scanWalk skip entries db0).db
          else batchInsertPhotos (scanWalk skip entries db0).db
            (photoListOf (scanAccOf (scanWalk skip entries db0) ms) ++
             videoListOf (scanAccOf (scanWalk skip entries db0) ms))) =
          batchInsertPhotos (scanWalk skip entries db0).db
            (photoListOf (scanAccOf (scanWalk skip entries db0) ms) ++
             videoListOf (scanAccOf (scanWalk skip entries db0) ms)) := by
        split
        · next hfe =>
            rw [List.isEmpty_iff.mp hfe]
            exact rfl
        · rfl
      rw [hdb]
    · intro f hf hm
      rcases loop_presence (scanWalk skip entries db0).db ms
          (scanWalk skip entries db0).files ⟨0, 0, 0, [], []⟩ f hf hm with
        hex | ⟨p, hp, hpd, hpf⟩
      · exact Or.inl hex
      · right
        rcases List.mem_append.mp hp with hp1 | hp2
        · rcases photoListOf_covers (scanAccOf (scanWalk skip entries db0) ms)
              p hp1 with ⟨q, hq, hqd, hqf⟩
          exact ⟨q, List.mem_append_left _ hq, hqd.trans hpd, hqf.trans hpf⟩
        · rcases videoListOf_covers (scanAccOf (scanWalk skip entries db0) ms)
              p hp2 with ⟨q, hq, hqd, hqf⟩
          exact ⟨q, List.mem_append_right _ hq, hqd.trans hpd, hqf.trans hpf⟩

/-- A completed scan leaves every real, non-special subdirectory of the root
registered in the `directories` table. -/
theorem scan_registers (entries : List FsEntry) (db0 : Db) (ms : MetaSource)
    (skip : Bool) (t : ℤ) (name : String) (sub : List FsEntry)
    (hmem : FsEntry.dir name sub ∈ entries)
    (hns : isSpecialDir name = false) :
    hasDirectory (scanAndProcessDirectory entries db0 ms skip t).2
      (joinPath "" name) = true := by
  rcases scan_presence entries db0 ms skip t with ⟨items, heq, _⟩
  rw [heq, hasDirectory_updateScanTime]
  have hbd : hasDirectory
      (batchInsertPhotos (scanWalk skip entries db0).db items)
      (joinPath "" name) =
      hasDirectory (scanWalk skip entries db0).db (joinPath "" name) := rfl
  rw [hbd]
  unfold scanWalk
  rw [getAllFilesRecursively_fresh]
  exact walk_registers_dirs skip "" entries _ name sub hmem hns

/-- A completed scan leaves every media file sitting directly in the root
present in the `photos` table. -/
theorem scan_records_root_media (entries : List FsEntry) (db0 : Db)
    (ms : MetaSource) (skip : Bool) (t : ℤ) (n : String)
    (hn : FsEntry.file n ∈ entries) (hm : isMediaFile n = true) :
    isFileExists (scanAndProcessDirectory entries db0 ms skip t).2 "" n =
      true := by
  rcases scan_presence entries db0 ms skip t with ⟨items, heq, hpres⟩
  have hf : (⟨"", n⟩ : FileItem) ∈ (scanWalk skip entries db0).files := by
    unfold scanWalk
    rw [getAllFilesRecursively_fresh]
    exact walk_collects_files skip "" entries _ n hn hm
  rw [heq]
  show photosHas
    (items.foldl upsertRow (scanWalk skip entries db0).db.photos) "" n = true
  rcases hpres ⟨"", n⟩ hf hm with hin | ⟨p, hp, hpd, hpf⟩
  · exact photosHas_batchInsert items _ "" n (Or.inl hin)
  · exact photosHas_batchInsert items _ "" n (Or.inr ⟨p, hp, hpd, hpf⟩)

/-- A `skipScanned` scan over a root whose subdirectories are all registered
and whose own media files are all present produces no new rows and still
reports `skippedDirectory = false`. -/
theorem scan_on_seen_db (entries : List FsEntry) (db : Db) (ms : MetaSource)
    (t : ℤ)
    (hdirs : ∀ name sub, FsEntry.dir name sub ∈ entries →
      isSpecialDir name = false →
      hasDirectory db (joinPath "" name) = true)
    (hfiles : ∀ n, FsEntry.file n ∈ entries → isMediaFile n = true →
      isFileExists db "" n = true) :
    (scanAndProcessDirectory entries db ms true t).1.newPhotos = 0 ∧
    (scanAndProcessDirectory entries db ms true t).1.newVideos = 0 ∧
    (scanAndProcessDirectory entries db ms true t).1.skippedDirectory =
      false := by
  have hreg : ∀ name sub, FsEntry.dir name sub ∈ entries →
      isSpecialDir name = false →
      hasDirectory (visitDir ⟨[], [], addDirectory db "", []⟩ "").db
        (joinPath "" name) = true := by
    intro name sub hmem hns
    exact hasDirectory_addDirectory_mono db "" _ (hdirs name sub hmem hns)
  have hwalk : scanWalk true entries db =
      ⟨[""], [""], addDirectory db "", rootMedia "" entries⟩ := by
    unfold scanWalk
    rw [getAllFilesRecursively_fresh]
    rw [walk_all_pruned "" entries
      (visitDir ⟨[], [], addDirectory db "", []⟩ "") hreg]
    exact rfl
  by_cases hemp : (rootMedia "" entries).isEmpty = true
  · have hemp2 : (scanWalk true entries db).files.isEmpty = true := by
      rw [hwalk]
      exact hemp
    rw [scan_eq_empty entries db ms true t hemp2]
    exact ⟨rfl, rfl, rfl⟩
  · have hemp2 : (scanWalk true entries db).files.isEmpty = false := by
      rw [hwalk]
      simpa using hemp
    have hall : ∀ f ∈ (scanWalk true entries db).files,
        isFileExists (scanWalk true entries db).db f.directory f.filename =
          true := by
      intro f hf
      rw [hwalk] at hf
      rcases rootMedia_mem "" entries f hf with ⟨n, rfl, hmed, hmem⟩
      rw [hwalk]
      show photosHas (addDirectory db "").photos "" n = true
      rw [addDirectory_photos]
      exact hfiles n hmem hmed
    have hacc := loop_all_present (scanWalk true entries db).db ms
      (scanWalk true entries db).files ⟨0, 0, 0, [], []⟩ hall
    have hpl : photoListOf (scanAccOf (scanWalk true entries db) ms) = [] := by
      unfold photoListOf scanAccOf
      rw [hacc.1]
      rfl
    have hvl : videoListOf (scanAccOf (scanWalk true entries db) ms) = [] := by
      unfold videoListOf scanAccOf
      rw [hacc.1, hacc.2]
      rfl
    rw [scan_eq_main entries db ms true t hemp2]
    refine ⟨?_, ?_, rfl⟩
    · show (photoListOf (scanAccOf (scanWalk true entries db) ms)).length = 0
      rw [hpl]
      rfl
    · show (videoListOf (scanAccOf (scanWalk true entries db) ms)).length = 0
      rw [hvl]
      rfl

/-- **C3.** Scanning the same root twice with `skipScanned = true` yields
`newPhotos = 0` and `newVideos = 0` on the second run, but the second run's
result reports `skippedDirectory = false`, not `true` as claimed: both return
paths of `scanAndProcessDirectory` hard-code `skippedDirectory: false`, so
the root is never reported as skipped. -/
theorem c3_second_scan_zero_new (entries : List FsEntry) (db0 : Db)
    (ms : MetaSource) (t1 t2 : ℤ) :
    (scanAndProcessDirectory entries
        (scanAndProcessDirectory entries db0 ms true t1).2
        ms true t2).1.newPhotos = 0 ∧
    (scanAndProcessDirectory entries
        (scanAndProcessDirectory entries db0 ms true t1).2
        ms true t2).1.newVideos = 0 ∧
    (scanAndProcessDirectory entries
        (scanAndProcessDirectory entries db0 ms true t1).2
        ms true t2).1.skippedDirectory = false := by
  refine scan_on_seen_db entries _ ms t2 ?_ ?_
  · intro name sub hmem hns
    exact scan_registers entries db0 ms true t1 name sub hmem hns
  · intro n hn hm
    exact scan_records_root_media entries db0 ms true t1 n hn hm

/-- A concrete metadata oracle: no EXIF data, a fixed file mtime. -/
def msC3 : MetaSource :=
  ⟨fun _ _ => ⟨none, none, none⟩, fun _ _ => some 5⟩

/-- Scanning a root holding the single photo `a.jpg` twice with
`skipScanned = true`: the second run's result has `skippedDirectory = false`,
refuting the claimed `skippedDirectory = true`. -/
theorem c3_counterexample :
    (scanAndProcessDirectory [FsEntry.file "a.jpg"]
        (scanAndProcessDirectory [FsEntry.file "a.jpg"] (Db.mk [] [])
          msC3 true 0).2
        msC3 true 1).1.skippedDirectory = false := by
  refine (scan_on_seen_db [FsEntry.file "a.jpg"] _ msC3 1 ?_ ?_).2.2
  · intro name sub hmem _
    simp at hmem
  · intro n hn hm
    simp only [List.mem_singleton, FsEntry.file.injEq] at hn
    subst hn
    exact scan_records_root_media [FsEntry.file "a.jpg"] (Db.mk [] [])
      msC3 true 0 "a.jpg" (List.mem_singleton_self _) hm

end GeoPhoto
